import Mathlib

/-!
# Verification of the YouTube API key rotation manager and the
# caption-extraction fallback chain

Shallow embedding of:
- `ApiKeyManager` (src/unnamed/part_000): credential storage, activation,
  quota-exhaustion marking, failover, probing and daily reset;
- the administrative routes over it (src/demo-transcript.js, routes section);
- `makeYouTubeApiRequest` (src/demo-transcript.js): the bounded-retry caller;
- `extractRealTranscript` (src/enhanced-transcript.js): the multi-strategy
  caption fallback chain and its text normalization.

JS `Map` is modelled as an insertion-ordered association list with in-place
replacement on key collision (`setEntry`); JS string falsiness (the empty
string) is modelled explicitly where the source relies on it.
-/

/-- JS `\s` (and `trim()`) whitespace test: space, tab, line terminators, and
the Unicode space separators JS includes. -/
def isSpaceChar (c : Char) : Bool :=
  c = ' ' ∨ c = '\t' ∨ c = '\n' ∨ c.val = 11 ∨ c.val = 12 ∨ c = '\r' ∨
  c.val = 0xa0 ∨ c.val = 0x1680 ∨ (0x2000 ≤ c.val ∧ c.val ≤ 0x200a) ∨
  c.val = 0x2028 ∨ c.val = 0x2029 ∨ c.val = 0x202f ∨ c.val = 0x205f ∨
  c.val = 0x3000 ∨ c.val = 0xfeff

/-- JS line terminators, which `.` in a regex never matches. -/
def isLineTerm (c : Char) : Bool :=
  c = '\n' ∨ c = '\r' ∨ c.val = 0x2028 ∨ c.val = 0x2029

/-- JS `trim()` on the character list: drop whitespace from both ends. -/
def trimChars (l : List Char) : List Char :=
  ((l.dropWhile isSpaceChar).reverse.dropWhile isSpaceChar).reverse

/-- JS `String.prototype.trim`. -/
def trimStr (s : String) : String := String.mk (trimChars s.data)

deriving instance DecidableEq for Except

namespace KeyRotation

/-- One credential, mirroring `interface ApiKey` of the source.
`lastChecked` timestamps are threaded as opaque strings supplied by the
caller (the source calls `new Date().toISOString()`). -/
structure ApiKey where
  id : String
  name : String
  key : String
  isActive : Bool
  quotaExceeded : Bool
  lastChecked : String
  dailyUsage : Nat
deriving DecidableEq, Repr

/-- The manager's mutable state: the `Map` of credentials in insertion order
plus `currentKeyId`. -/
structure ManagerState where
  apiKeys : List ApiKey
  currentKeyId : Option String
deriving DecidableEq, Repr

/-- The manager with no credentials loaded (constructor with no environment
keys set). -/
def emptyState : ManagerState := ⟨[], none⟩

/-- `Map.get(id)`: first (unique) entry with the given id. -/
def findKey (st : ManagerState) (id : String) : Option ApiKey :=
  st.apiKeys.find? (fun k => k.id = id)

/-- `Map.set(id, k)`: replace in place on collision, append otherwise. -/
def setEntry : List ApiKey → ApiKey → List ApiKey
  | [], k => [k]
  | e :: r, k => if e.id = k.id then k :: r else e :: setEntry r k

/-- Mutation of the entry stored under `id` (JS object mutation through the
reference obtained from `Map.get`). -/
def updateEntry : List ApiKey → String → (ApiKey → ApiKey) → List ApiKey
  | [], _, _ => []
  | e :: r, id, f => if e.id = id then f e :: r else e :: updateEntry r id f

/-- `Map.delete(id)`. -/
def removeEntry : List ApiKey → String → List ApiKey
  | [], _ => []
  | e :: r, id => if e.id = id then r else e :: removeEntry r id

/-- JS falsiness of `this.currentKeyId` (`null` or the empty string). -/
def isFalsyId : Option String → Bool
  | none => true
  | some s => s = ""

/-- `getAllKeys()`: `Array.from(this.apiKeys.values())`. -/
def getAllKeys (st : ManagerState) : List ApiKey := st.apiKeys

/-- `getActiveKey()`: `null` if no current id, if the current credential is
quota-exceeded, or (via `activeKey?.key || null`) if its secret is the empty
string. -/
def getActiveKey (st : ManagerState) : Option String :=
  match st.currentKeyId with
  | none => none
  | some cid =>
    if cid = "" then none
    else
      match findKey st cid with
      | none => none
      | some k =>
        if k.quotaExceeded then none
        else if k.key = "" then none else some k.key

/-- `setActiveKey(id)`: fails on unknown or quota-exceeded target; otherwise
deactivates the current credential (if any) and activates the target. -/
def setActiveKey (st : ManagerState) (id : String) : Bool × ManagerState :=
  match findKey st id with
  | none => (false, st)
  | some k =>
    if k.quotaExceeded then (false, st)
    else
      let st1 :=
        match st.currentKeyId with
        | some cid =>
          if cid = "" then st
          else { st with apiKeys := updateEntry st.apiKeys cid (fun e => { e with isActive := false }) }
        | none => st
      (true, { st1 with
                apiKeys := updateEntry st1.apiKeys id (fun e => { e with isActive := true }),
                currentKeyId := some id })

/-- The credential record built by `addKey` before insertion. -/
def mkNewKey (name key id now : String) : ApiKey :=
  { id := id, name := name, key := key, isActive := false,
    quotaExceeded := false, lastChecked := now, dailyUsage := 0 }

/-- The state right after `this.apiKeys.set(id, newKey)` inside `addKey`. -/
def insertOnly (st : ManagerState) (name key id now : String) : ManagerState :=
  { st with apiKeys := setEntry st.apiKeys (mkNewKey name key id now) }

/-- `addKey(name, key)`: inserts the new credential, then activates it when
`!this.currentKeyId || !this.getActiveKey()`. The generated id and the
timestamp are passed in explicitly. -/
def addKey (st : ManagerState) (name key id now : String) : String × ManagerState :=
  let st1 := insertOnly st name key id now
  let st2 :=
    if isFalsyId st1.currentKeyId ∨ (getActiveKey st1).isNone then (setActiveKey st1 id).2
    else st1
  (id, st2)

/-- `switchToNextAvailableKey()`: picks the first non-exhausted credential in
insertion order. With none available it clears `currentKeyId` and returns —
without deactivating the previously active credential. -/
def switchToNextAvailableKey (st : ManagerState) : Bool × ManagerState :=
  match st.apiKeys.filter (fun k => !k.quotaExceeded) with
  | [] => (false, { st with currentKeyId := none })
  | next :: _ =>
    let st1 :=
      match st.currentKeyId with
      | some cid =>
        if cid = "" then st
        else { st with apiKeys := updateEntry st.apiKeys cid (fun e => { e with isActive := false }) }
      | none => st
    (true, { st1 with
              apiKeys := updateEntry st1.apiKeys next.id (fun e => { e with isActive := true }),
              currentKeyId := some next.id })

/-- `removeKey(id)`. -/
def removeKey (st : ManagerState) (id : String) : Bool × ManagerState :=
  if (findKey st id).isNone then (false, st)
  else
    let st1 := { st with apiKeys := removeEntry st.apiKeys id }
    if st.currentKeyId = some id then (true, (switchToNextAvailableKey st1).2)
    else (true, st1)

/-- Mark the first entry whose secret equals `keyValue`
(the loop body of `markKeyAsExceeded` up to its `break`). -/
def markFirstByValue : List ApiKey → String → String → List ApiKey
  | [], _, _ => []
  | e :: r, keyValue, now =>
    if e.key = keyValue then { e with quotaExceeded := true, lastChecked := now } :: r
    else e :: markFirstByValue r keyValue now

/-- `markKeyAsExceeded(keyValue)`: first match by secret value, then failover
when the matched credential was the current one. -/
def markKeyAsExceeded (st : ManagerState) (keyValue now : String) : ManagerState :=
  match st.apiKeys.find? (fun k => k.key = keyValue) with
  | none => st
  | some k =>
    let st1 := { st with apiKeys := markFirstByValue st.apiKeys keyValue now }
    if st.currentKeyId = some k.id then (switchToNextAvailableKey st1).2 else st1

/-- `resetDailyQuotas()`. -/
def resetDailyQuotas (st : ManagerState) (now : String) : ManagerState :=
  let st1 := { st with
    apiKeys := st.apiKeys.map (fun k => { k with quotaExceeded := false, dailyUsage := 0, lastChecked := now }) }
  if isFalsyId st1.currentKeyId then (switchToNextAvailableKey st1).2 else st1

/-- Outcome of the network probe inside `testKey`, abstracting the fetch. -/
inductive TestOutcome where
  | apiErr (reason : Option String) (message : String)
  | apiOk (hasTotalResults : Bool)
  | netFail
deriving DecidableEq, Repr

/-- The value `testKey` resolves to. -/
structure TestResult where
  success : Bool
  error : Option String
  quotaInfo : Option String
deriving DecidableEq, Repr

/-- `testKey(id)` given the probe outcome: sets `quotaExceeded := true` on a
quota-exceeded error reason, clears it on success, and always refreshes
`lastChecked` — it never touches `isActive` or `currentKeyId`. -/
def testKey (st : ManagerState) (id : String) (outcome : TestOutcome) (now : String) :
    TestResult × ManagerState :=
  match findKey st id with
  | none => (⟨false, some "API 키를 찾을 수 없습니다.", none⟩, st)
  | some _ =>
    match outcome with
    | .apiErr reason msg =>
      let st1 := { st with apiKeys := updateEntry st.apiKeys id (fun k =>
        { k with
          quotaExceeded := if reason = some "quotaExceeded" then true else k.quotaExceeded,
          lastChecked := now }) }
      (⟨false, some msg, none⟩, st1)
    | .apiOk hasTotal =>
      let st1 := { st with apiKeys := updateEntry st.apiKeys id (fun k =>
        { k with quotaExceeded := false, lastChecked := now }) }
      (⟨true, none, some (if hasTotal then "검색 가능" else "정상")⟩, st1)
    | .netFail =>
      let st1 := { st with apiKeys := updateEntry st.apiKeys id (fun k =>
        { k with lastChecked := now }) }
      (⟨false, some "네트워크 오류가 발생했습니다.", none⟩, st1)

/-- The manager's public operations, as invoked from the administrative
routes and from the API caller. -/
inductive MOp where
  | add (name key id now : String)
  | remove (id : String)
  | markExceeded (keyValue now : String)
  | activate (id : String)
  | switchNext
  | test (id : String) (outcome : TestOutcome) (now : String)
  | resetQuotas (now : String)
deriving DecidableEq, Repr

/-- One public operation applied to the state (results discarded). -/
def step (st : ManagerState) : MOp → ManagerState
  | .add name key id now => (addKey st name key id now).2
  | .remove id => (removeKey st id).2
  | .markExceeded keyValue now => markKeyAsExceeded st keyValue now
  | .activate id => (setActiveKey st id).2
  | .switchNext => (switchToNextAvailableKey st).2
  | .test id outcome now => (testKey st id outcome now).2
  | .resetQuotas now => resetDailyQuotas st now

/-- Run a sequence of operations from a starting state. -/
def runFrom (st : ManagerState) (ops : List MOp) : ManagerState :=
  ops.foldl step st

/-- Run a sequence of operations from the empty manager. -/
def runOps (ops : List MOp) : ManagerState :=
  runFrom emptyState ops

/-- One YouTube API response as observed by `makeYouTubeApiRequest`:
either a data payload or an error object with `reason`, `code`, `message`. -/
inductive YtResp where
  | ok (data : String)
  | fail (reason : Option String) (code : Option Int) (message : Option String)
deriving DecidableEq, Repr

/-- The errors `makeYouTubeApiRequest` can throw: no active key available,
every key's quota exhausted after a failed switch, or the generic
YouTube API error. -/
inductive MErr where
  | noKeys
  | allExhausted
  | apiError (msg : String)
deriving DecidableEq, Repr

/-- `data.error.message || data.error.code` (JS `||` on a possibly empty
message, falling back to the stringified code). -/
def errText (message : Option String) (code : Option Int) : String :=
  let codePart := match code with
    | some n => toString n
    | none => "undefined"
  match message with
  | some m => if m = "" then codePart else m
  | none => codePart

/-- The body of one `makeYouTubeApiRequest` attempt: obtain the active
secret, consult the response for this attempt, and on a quota-exceeded (or
403) error with `retryCount < 2` mark the secret exhausted, switch, and hand
the switched state to the retry continuation; otherwise throw. -/
def makeRequestBody (st : ManagerState) (resp : Nat → YtResp) (now : String) (rc : Nat)
    (retry : ManagerState → Except MErr String × ManagerState) :
    Except MErr String × ManagerState :=
  match getActiveKey st with
  | none => (.error .noKeys, st)
  | some currentKey =>
    match resp rc with
    | .ok d => (.ok d, st)
    | .fail reason code message =>
      if (reason = some "quotaExceeded" ∨ code = some 403) ∧ rc < 2 then
        let st1 := markKeyAsExceeded st currentKey now
        let sw := switchToNextAvailableKey st1
        if sw.1 then retry sw.2 else (.error .allExhausted, sw.2)
      else (.error (.apiError (errText message code)), st)

/-- The recursion of `makeYouTubeApiRequest` with a structural depth bound.
The bound is never reached: each retry both increments `rc` and consumes one
unit of fuel, and the `rc < 2` guard stops all recursion after at most two
retries, so with fuel 3 the zero-fuel continuation is unreachable (it
mirrors the failed-switch result). -/
def makeRequestFuel : Nat → ManagerState → (Nat → YtResp) → String → Nat →
    Except MErr String × ManagerState
  | 0, st, resp, now, rc =>
    makeRequestBody st resp now rc (fun sw2 => (.error .allExhausted, sw2))
  | fuel + 1, st, resp, now, rc =>
    makeRequestBody st resp now rc (fun sw2 => makeRequestFuel fuel sw2 resp now (rc + 1))

/-- `makeYouTubeApiRequest(url, params, retryCount)`: obtains the active
secret, consults the response oracle `resp` for the current attempt, and on a
quota-exceeded (or 403) error with `retryCount < 2` marks the secret
exhausted, switches, and retries; otherwise it throws. -/
def makeRequest (st : ManagerState) (resp : Nat → YtResp) (now : String) (rc : Nat) :
    Except MErr String × ManagerState :=
  makeRequestFuel 3 st resp now rc

/-- The response of an administrative route. -/
inductive RouteResp where
  | badRequest (error : String)
  | okId (id : String)
deriving DecidableEq, Repr

/-- The redaction applied by the GET `/api/settings/api-keys` route:
`key.substring(0, 10) + '...' + key.substring(key.length - 4)`
(JS `substring` clamps out-of-range indices). -/
def redactSecret (s : String) : String :=
  String.mk (s.data.take 10) ++ "..." ++ String.mk (s.data.drop (s.data.length - 4))

/-- The credential view returned by the GET route (`dailyUsage` dropped,
secret redacted). -/
structure ApiKeyView where
  id : String
  name : String
  key : String
  isActive : Bool
  quotaExceeded : Bool
  lastChecked : String
deriving DecidableEq, Repr

/-- The GET `/api/settings/api-keys` route body: `getAllKeys()` mapped
through the redacting view. -/
def apiKeysRouteList (st : ManagerState) : List ApiKeyView :=
  (getAllKeys st).map (fun k =>
    ⟨k.id, k.name, redactSecret k.key, k.isActive, k.quotaExceeded, k.lastChecked⟩)

/-- The POST `/api/settings/api-keys` route: rejects a falsy (empty) `name`
or `key` with a 400 before `addKey` runs, otherwise adds the trimmed pair. -/
def addKeyRoute (st : ManagerState) (name key freshId now : String) :
    RouteResp × ManagerState :=
  if name = "" ∨ key = "" then (.badRequest "키 이름과 API 키가 필요합니다", st)
  else
    let r := addKey st (trimStr name) (trimStr key) freshId now
    (.okId r.1, r.2)

end KeyRotation

namespace Caption

/-- Index (within the list) of the first occurrence of `cl`, scanning as the
lazy regex body does: `nlStops = true` models a `.`-based body (`.` never
matches a line terminator), `nlStops = false` models a `[^>]`-style body. -/
def findCloseIdx (nlStops : Bool) (cl : Char) : List Char → Option Nat
  | [] => none
  | c :: r =>
    if c = cl then some 0
    else if nlStops && isLineTerm c then none
    else (findCloseIdx nlStops cl r).map (· + 1)

/-- The scanner realizing the global lazy pair-removing replace.
In normal mode (`none`) characters are emitted until an `op` opens a
candidate match, buffered in reverse. The buffered candidate is discarded
when the nearest admissible `cl` closes it (the lazy `.*?` body); it is
flushed unconsumed when a line terminator intervenes (`.` cannot match one,
`nlStops = true`) or when input ends, with scanning resuming in normal
mode — exactly the engine's advance on a failed match position. -/
def stripGo (nlStops : Bool) (op cl : Char) : List Char → Option (List Char) → List Char
  | [], none => []
  | [], some buf => buf.reverse
  | c :: r, none =>
    if c = op then stripGo nlStops op cl r (some [c])
    else c :: stripGo nlStops op cl r none
  | c :: r, some buf =>
    if c = cl then stripGo nlStops op cl r none
    else if nlStops && isLineTerm c then buf.reverse ++ c :: stripGo nlStops op cl r none
    else stripGo nlStops op cl r (some (c :: buf))

/-- The global lazy pair-removing replace: models `replace(/\[.*?\]/g, '')`
(with `nlStops = true`, `op = '['`, `cl = ']'`), `replace(/\(.*?\)/g, '')`,
and `replace(/<[^>]*>/g, '')` (with `nlStops = false`). -/
def stripPairs (nlStops : Bool) (op cl : Char) (l : List Char) : List Char :=
  stripGo nlStops op cl l none

/-- The scanner for `replace(/\s+/g, ' ')`: the flag records whether the
scan is inside a whitespace run that already emitted its single space. -/
def collapseAux : List Char → Bool → List Char
  | [], _ => []
  | c :: r, inRun =>
    if isSpaceChar c then
      if inRun then collapseAux r true else ' ' :: collapseAux r true
    else c :: collapseAux r false

/-- `replace(/\s+/g, ' ')`: each maximal whitespace run becomes one space. -/
def collapseSpaces (l : List Char) : List Char :=
  collapseAux l false

/-- The normalization used in the language loop and the discovered-language
loop (src/enhanced-transcript.js lines 33-36 and 68-71): strip `[...]`,
strip `(...)`, collapse whitespace, trim. -/
def normalizeFull (s : String) : String :=
  String.mk (trimChars (collapseSpaces (stripPairs true '(' ')' (stripPairs true '[' ']' s.data))))

/-- The normalization used by the auto-detect path (lines 102-104) and the
raw timed-text fallback (lines 167-170): strip `[...]`, collapse whitespace,
trim — with no parenthetical strip. -/
def normalizeNoParen (s : String) : String :=
  String.mk (trimChars (collapseSpaces (stripPairs true '[' ']' s.data)))

/-- One transcript item as delivered by the caption API. -/
structure TItem where
  text : Option String
  transcript : Option String
deriving DecidableEq, Repr

/-- Outcome of one `YoutubeTranscript.fetchTranscript` call: the resolved
item list, or the thrown error's message. -/
inductive FetchOutcome where
  | ok (items : List TItem)
  | err (msg : String)
deriving DecidableEq, Repr

/-- The caption API abstracted as a function of the requested locale
(`none` = no `lang` option). -/
def FetchOracle := Option String → FetchOutcome

/-- One segment of a `json3` timed-text payload. -/
structure RawSeg where
  utf8 : Option String
deriving DecidableEq, Repr

/-- One event of a `json3` timed-text payload. -/
structure REvent where
  segs : Option (List RawSeg)
deriving DecidableEq, Repr

/-- A raw timed-text response body: a JSON object (with or without an
`events` field) or a plain string. -/
inductive RawData where
  | rjson (events : Option (List REvent))
  | rstr (s : String)
deriving DecidableEq, Repr

/-- Outcome of one raw timed-text request: a body, or an axios error
(404, timeout, network failure). -/
inductive RawOutcome where
  | rok (d : RawData)
  | rerr
deriving DecidableEq, Repr

/-- The raw timed-text endpoint abstracted as a function of the URL
permutation index (0..5). -/
def RawOracle := Nat → RawOutcome

/-- The final value `extractRealTranscript` resolves to. -/
structure TranscriptResult where
  success : Bool
  transcript : Option String
  language : Option String
  method : String
  error : Option String
deriving DecidableEq, Repr

/-- A successful extraction record. -/
def mkSuccess (t lang meth : String) : TranscriptResult :=
  ⟨true, some t, some lang, meth, none⟩

/-- The terminal failure record returned when every strategy fails. -/
def failResult : TranscriptResult :=
  ⟨false, none, none, "none", some "No transcript available for this video"⟩

/-- The fixed language list of the primary loop. -/
def languagesList : List String :=
  ["ko", "en", "ja", "zh", "es", "fr", "de", "auto"]

/-- JS `a || b` on a possibly-absent string (empty string is falsy). -/
def jsOrElse (o : Option String) (d : String) : String :=
  match o with
  | some s => if s = "" then d else s
  | none => d

/-- `transcript.map(item => item.text || item.transcript || '')
.filter(text => text && text.trim()).join(' ')` — the language-loop join. -/
def joinM1 (items : List TItem) : String :=
  String.intercalate " "
    ((items.map (fun i => jsOrElse i.text (jsOrElse i.transcript ""))).filter
      (fun t => decide (t ≠ "" ∧ trimStr t ≠ "")))

/-- `transcript.map(item => item.text).join(' ')` — the join used by the
discovered-language loop and the auto-detect path (`undefined` joins as
the empty string). -/
def joinSimple (items : List TItem) : String :=
  String.intercalate " " (items.map (fun i => i.text.getD ""))

/-- The literal scanned for inside caught error messages. -/
def availLit : List Char := "Available languages: ".data

/-- The regex `/Available languages: (.+)/` applied to an error message:
first position where the literal is followed by at least one
non-line-terminator character; the capture is the maximal such run. -/
def scanAvail : List Char → Option (List Char)
  | [] => none
  | c :: r =>
    if (c :: r).take 21 = availLit then
      match (c :: r).drop 21 with
      | [] => scanAvail r
      | d :: _ =>
        if isLineTerm d then scanAvail r
        else some (((c :: r).drop 21).takeWhile (fun x => !isLineTerm x))
    else scanAvail r

/-- JS `s.split(',')`. -/
def splitComma : List Char → List (List Char)
  | [] => [[]]
  | c :: r =>
    if c = ',' then [] :: splitComma r
    else
      match splitComma r with
      | [] => [[c]]
      | h :: t => (c :: h) :: t

/-- The discovered-language parse of a caught error message: `includes` check
plus `/Available languages: (.+)/` match, split on commas, each trimmed. -/
def availLangsOf (msg : String) : Option (List String) :=
  (scanAvail msg.data).map (fun cap => (splitComma cap).map (fun p => trimStr (String.mk p)))

/-- One fetch of the primary loop: `'auto'` requests the default track. -/
def fetchFor (f : FetchOracle) (lang : String) : FetchOutcome :=
  if lang = "auto" then f none else f (some lang)

/-- The inner loop over languages discovered from an error message: only
locales outside the fixed list are attempted; a fetch succeeds when its
normalized text is strictly longer than 30. -/
def tryDiscovered (f : FetchOracle) : List String → Option TranscriptResult
  | [] => none
  | al :: rest =>
    if languagesList.contains al then tryDiscovered f rest
    else
      match f (some al) with
      | .ok items =>
        if items.length > 0 then
          let t := normalizeFull (joinSimple items)
          if t.length > 30 then some (mkSuccess t al "youtube-transcript-api")
          else tryDiscovered f rest
        else tryDiscovered f rest
      | .err _ => tryDiscovered f rest

/-- One iteration of the primary language loop: on a resolved fetch the
normalized text must be strictly longer than 30; on a thrown error the
discovered-language loop runs when the message carries an
`Available languages:` enumeration. -/
def langStep (f : FetchOracle) (lang : String) : Option TranscriptResult :=
  match fetchFor f lang with
  | .ok items =>
    if items.length > 0 then
      let t := normalizeFull (joinM1 items)
      if t.length > 30 then some (mkSuccess t lang "youtube-transcript-api")
      else none
    else none
  | .err msg =>
    match availLangsOf msg with
    | some ls => tryDiscovered f ls
    | none => none

/-- The primary loop over the fixed language list. -/
def tryLangs (f : FetchOracle) : List String → Option TranscriptResult
  | [] => none
  | lang :: rest =>
    match langStep f lang with
    | some r => some r
    | none => tryLangs f rest

/-- Method 2: auto-detect fetch, no-paren normalization, threshold 50. -/
def method2 (f : FetchOracle) : Option TranscriptResult :=
  match f none with
  | .ok items =>
    if items.length > 0 then
      let t := normalizeNoParen (joinSimple items)
      if t.length > 50 then some (mkSuccess t "auto" "youtube-transcript-api")
      else none
    else none
  | .err _ => none

/-- `<text`. -/
def openTagLit : List Char := "<text".data

/-- `</text>`. -/
def closeTagLit : List Char := "</text>".data

/-- Index of the first position where `</text>` matches, with no line
terminator allowed before it (the `(.*?)` body cannot cross one). -/
def findCloseTagIdx : List Char → Option Nat
  | [] => none
  | c :: r =>
    if (c :: r).take 7 = closeTagLit then some 0
    else if isLineTerm c then none
    else (findCloseTagIdx r).map (· + 1)

/-- `srv3Body.match(/<text[^>]*>(.*?)<\/text>/g)`: the list of full matches,
scanned left to right, resuming after each match. -/
def scanTextMatches : List Char → List (List Char)
  | [] => []
  | c :: r =>
    if (c :: r).take 5 = openTagLit then
      match findCloseIdx false '>' ((c :: r).drop 5) with
      | none => scanTextMatches r
      | some i =>
        match findCloseTagIdx (((c :: r).drop 5).drop (i + 1)) with
        | none => scanTextMatches r
        | some j =>
          (c :: r).take (5 + i + 1 + j + 7) ::
            scanTextMatches ((c :: r).drop (5 + i + 1 + j + 7))
    else scanTextMatches r
termination_by l => l.length
decreasing_by
  all_goals simp [List.length_drop]
  omega

/-- `match.replace(/<[^>]*>/g, '')` applied to one `<text>` match. -/
def stripTags (l : List Char) : List Char :=
  stripPairs false '<' '>' l

/-- The `json3` extraction loop: `utf8` segments concatenated with trailing
spaces; falsy (absent or empty) `utf8` values are skipped. -/
def rawExtractJson (evs : List REvent) : String :=
  evs.foldl
    (fun acc ev =>
      match ev.segs with
      | none => acc
      | some segs =>
        segs.foldl
          (fun a sg =>
            match sg.utf8 with
            | some u => if u = "" then a else a ++ u ++ " "
            | none => a)
          acc)
    ""

/-- JS truthiness of `response.data` (an empty string body is falsy). -/
def rawTruthy : RawData → Bool
  | .rjson _ => true
  | .rstr s => s ≠ ""

/-- Text extracted from one raw timed-text body: the `json3` branch when an
`events` field is present, the SRV3/XML branch for string bodies (joined
tag-stripped matches), the empty string otherwise. -/
def rawExtract : RawData → String
  | .rjson events =>
    match events with
    | some evs => rawExtractJson evs
    | none => ""
  | .rstr s =>
    String.intercalate " " ((scanTextMatches s.data).map (fun m => String.mk (stripTags m)))

/-- Method 3: the loop over the six URL permutations; each body is extracted,
normalized without the paren strip, and accepted above length 50. -/
def method3Go (rf : RawOracle) : List Nat → Option TranscriptResult
  | [] => none
  | i :: rest =>
    match rf i with
    | .rerr => method3Go rf rest
    | .rok d =>
      if rawTruthy d then
        let t := normalizeNoParen (rawExtract d)
        if t.length > 50 then some (mkSuccess t "detected" "alternative-api")
        else method3Go rf rest
      else method3Go rf rest

/-- `extractRealTranscript(videoId)` with its two network dependencies
abstracted as oracles: the primary language loop, then the auto-detect
fetch, then the six raw timed-text permutations, then the terminal failure
record. -/
def extract (f : FetchOracle) (rf : RawOracle) : TranscriptResult :=
  match tryLangs f languagesList with
  | some r => r
  | none =>
    match method2 f with
    | some r => r
    | none =>
      match method3Go rf [0, 1, 2, 3, 4, 5] with
      | some r => r
      | none => failResult

end Caption

namespace Caption

/-- Specification device for the normalization proofs: every occurrence of
`op` in the list is followed by no later `cl`, so the pair-stripping regex
can match nowhere. -/
def PairFree (op cl : Char) : List Char → Prop
  | [] => True
  | c :: r => (c = op → cl ∉ r) ∧ PairFree op cl r

/-- Specification device: the suffix after the first occurrence of `cl`. -/
def dropThroughFirst (cl : Char) : List Char → List Char
  | [] => []
  | c :: r => if c = cl then r else dropThroughFirst cl r

/-- Specification device: every whitespace character is a plain space and no
two whitespace characters are adjacent. -/
def SingleSpaced (l : List Char) : Prop :=
  (∀ c ∈ l, isSpaceChar c = true → c = ' ') ∧
  l.Chain' (fun a b => ¬(isSpaceChar a = true ∧ isSpaceChar b = true))

/-- Specification device: the first character, if any, is not whitespace. -/
def HeadNotSpace (l : List Char) : Prop :=
  ∀ c, l.head? = some c → isSpaceChar c = false

end Caption

section ConcreteInstances

open KeyRotation Caption

/-- Add one credential, exhaust its secret, add a second credential. -/
def c1Trace : List MOp :=
  [MOp.add "기본 키" "secret-one" "id1" "t1",
   MOp.markExceeded "secret-one" "t2",
   MOp.add "API 키 2" "secret-two" "id2" "t3"]

/-- Two credentials; the first (current) is marked exhausted by a probe that
received a quota-exceeded error. -/
def c2BadTrace : List MOp :=
  [MOp.add "a" "secret-one" "id1" "t1",
   MOp.add "b" "secret-two" "id2" "t2",
   MOp.test "id1" (TestOutcome.apiErr (some "quotaExceeded") "quota") "t3"]

/-- One credential whose secret gets exhausted: afterwards no usable
credential remains. -/
def c2WitTrace : List MOp :=
  [MOp.add "a" "secret-one" "id1" "t1",
   MOp.markExceeded "secret-one" "t2"]

/-- A manager holding one credential with a twenty-character secret. -/
def c3St : ManagerState :=
  (KeyRotation.addKey emptyState "기본 키" "ABCDEFGHIJKLMNOPQRST" "id1" "t1").2

/-- Three usable credentials, the first active. -/
def c5St : ManagerState :=
  runOps [MOp.add "a" "secret-one" "id1" "t1",
          MOp.add "b" "secret-two" "id2" "t2",
          MOp.add "c" "secret-three" "id3" "t3"]

/-- A response oracle answering every attempt with a quota-exceeded error. -/
def c5RespQ : Nat → YtResp := fun _ => .fail (some "quotaExceeded") none (some "quota message")

/-- A response oracle equal to `c5RespQ` on the first three attempts. -/
def c5RespQ' : Nat → YtResp := fun n =>
  if n < 3 then .fail (some "quotaExceeded") none (some "quota message") else .ok "late"

/-- A caption fetch oracle: the `ko` track resolves to a single segment of
exactly 30 characters; every other request fails. -/
def c6Fetch : FetchOracle := fun o =>
  match o with
  | some l => if l = "ko" then .ok [⟨some "aaaaaaaaaaaaaaaaaaaaaaaaaaaaaa", none⟩] else .err "na"
  | none => .err "na"

/-- A caption fetch oracle whose `ko` track is 31 characters long. -/
def c6FetchW : FetchOracle := fun o =>
  match o with
  | some l => if l = "ko" then .ok [⟨some "aaaaaaaaaaaaaaaaaaaaaaaaaaaaaaa", none⟩] else .err "na"
  | none => .err "na"

/-- A raw timed-text oracle where every URL permutation fails. -/
def cRawErr : RawOracle := fun _ => .rerr

/-- Two credentials sharing one secret, the first of them current. -/
def c10St : ManagerState :=
  runOps [MOp.add "a" "shared-secret" "id1" "t1",
          MOp.add "b" "shared-secret" "id2" "t2"]

/-- Two credentials with distinct secrets; the first is current, so marking
the second exhausted triggers no failover. -/
def c10bSt : ManagerState :=
  ⟨[⟨"id1", "a", "secret-one", true, false, "t1", 0⟩,
    ⟨"id2", "b", "secret-two", false, false, "t2", 0⟩], some "id1"⟩

end ConcreteInstances

namespace KeyRotation

/-- Specification device: the inductive invariant of manager states reachable
by probe-free, well-formed administrative operations — secrets and ids are
nonempty, ids are unique, the current id (when set) designates a stored
credential, and whenever any credential is usable the current credential is
present and usable. -/
def Inv (st : ManagerState) : Prop :=
  (∀ k ∈ st.apiKeys, k.key ≠ "") ∧
  (∀ k ∈ st.apiKeys, k.id ≠ "") ∧
  (st.apiKeys.map (fun k => k.id)).Nodup ∧
  (∀ c, st.currentKeyId = some c → ∃ k ∈ st.apiKeys, k.id = c) ∧
  ((∃ k ∈ st.apiKeys, k.quotaExceeded = false) →
    ∃ c k, st.currentKeyId = some c ∧ findKey st c = some k ∧ k.quotaExceeded = false)

/-- Specification device: well-formed non-probe operations — `addKey` is
called with a nonempty generated id and a nonempty secret (as the id
generator and the validating route guarantee), and no `testKey` probes
occur. -/
def opOk : MOp → Prop
  | .add _ key id _ => id ≠ "" ∧ key ≠ ""
  | .test _ _ _ => False
  | _ => True

instance decOpOk : (op : MOp) → Decidable (opOk op)
  | .add _ key id _ => inferInstanceAs (Decidable (id ≠ "" ∧ key ≠ ""))
  | .remove _ => inferInstanceAs (Decidable True)
  | .markExceeded _ _ => inferInstanceAs (Decidable True)
  | .activate _ => inferInstanceAs (Decidable True)
  | .switchNext => inferInstanceAs (Decidable True)
  | .test _ _ _ => inferInstanceAs (Decidable False)
  | .resetQuotas _ => inferInstanceAs (Decidable True)

end KeyRotation

section CaptionLemmas

open Caption

/-- The scanner's output is a sublist of the pending buffer followed by the
remaining input. -/
theorem stripGo_sublist (nl : Bool) (op cl : Char) :
    ∀ (l : List Char) (ob : Option (List Char)),
      (stripGo nl op cl l ob).Sublist ((ob.elim [] List.reverse) ++ l) := by
  intro l
  induction l with
  | nil =>
    intro ob
    cases ob with
    | none => simp [stripGo]
    | some buf => simp [stripGo]
  | cons c r ih =>
    intro ob
    cases ob with
    | none =>
      simp only [stripGo, Option.elim, List.nil_append]
      split_ifs with hc
      · have := ih (some [c])
        simpa using this
      · exact (ih none).cons₂ c
    | some buf =>
      simp only [stripGo, Option.elim]
      split_ifs with hc hb
      · subst hc
        have h2 := ih none
        simp only [Option.elim, List.nil_append] at h2
        exact h2.trans ((List.sublist_cons_self c r).trans (List.sublist_append_right _ _))
      · have h2 := ih none
        simp only [Option.elim, List.nil_append] at h2
        exact ((h2.cons₂ c).append_left buf.reverse)
      · have h2 := ih (some (c :: buf))
        simp only [Option.elim, List.reverse_cons, List.append_assoc] at h2
        simpa using h2


/-- Stripping is the identity when the opening character never occurs. -/
theorem stripGo_no_op (nl : Bool) (op cl : Char) :
    ∀ l : List Char, op ∉ l → stripGo nl op cl l none = l := by
  intro l
  induction l with
  | nil => simp [stripGo]
  | cons c r ih =>
    intro h
    have hc : c ≠ op := fun hco => h (hco ▸ List.mem_cons_self c r)
    have hr : op ∉ r := fun hm => h (List.mem_cons_of_mem c hm)
    simp [stripGo, hc, ih hr]

/-- `stripPairs` only deletes characters. -/
theorem stripPairs_sublist (nl : Bool) (op cl : Char) (l : List Char) :
    (stripPairs nl op cl l).Sublist l := by
  simpa using stripGo_sublist nl op cl l none

/-- A result produced by the discovered-language loop is a tagged success. -/
theorem tryDiscovered_shape (f : FetchOracle) :
    ∀ (ls : List String) (r : TranscriptResult), tryDiscovered f ls = some r →
      ∃ t lg, r = mkSuccess t lg "youtube-transcript-api" := by
  intro ls
  induction ls with
  | nil => intro r h; simp [tryDiscovered] at h
  | cons al rest ih =>
    intro r h
    cases hcon : languagesList.contains al with
    | true =>
      simp only [tryDiscovered, hcon, if_true] at h
      exact ih r h
    | false =>
      cases hf : f (some al) with
      | ok items =>
        simp only [tryDiscovered, hcon, Bool.false_eq_true, if_false, hf] at h
        by_cases hlen : items.length > 0
        · rw [if_pos hlen] at h
          by_cases ht : (normalizeFull (joinSimple items)).length > 30
          · rw [if_pos ht] at h
            exact ⟨_, al, (Option.some.inj h).symm⟩
          · rw [if_neg ht] at h
            exact ih r h
        · rw [if_neg hlen] at h
          exact ih r h
      | err m =>
        simp only [tryDiscovered, hcon, Bool.false_eq_true, if_false, hf] at h
        exact ih r h

/-- A result produced by one language-loop iteration is a tagged success. -/
theorem langStep_shape (f : FetchOracle) (lang : String) (r : TranscriptResult) :
    langStep f lang = some r → ∃ t lg, r = mkSuccess t lg "youtube-transcript-api" := by
  intro h
  cases hf : fetchFor f lang with
  | ok items =>
    simp only [langStep, hf] at h
    by_cases hlen : items.length > 0
    · rw [if_pos hlen] at h
      by_cases ht : (normalizeFull (joinM1 items)).length > 30
      · rw [if_pos ht] at h
        exact ⟨_, lang, (Option.some.inj h).symm⟩
      · rw [if_neg ht] at h; exact absurd h (by simp)
    · rw [if_neg hlen] at h; exact absurd h (by simp)
  | err msg =>
    cases ha : availLangsOf msg with
    | some ls =>
      simp only [langStep, hf, ha] at h
      exact tryDiscovered_shape f ls r h
    | none =>
      simp only [langStep, hf, ha] at h
      exact Option.noConfusion h

/-- A result produced by the primary language loop is a tagged success. -/
theorem tryLangs_shape (f : FetchOracle) :
    ∀ (ls : List String) (r : TranscriptResult), tryLangs f ls = some r →
      ∃ t lg, r = mkSuccess t lg "youtube-transcript-api" := by
  intro ls
  induction ls with
  | nil => intro r h; simp [tryLangs] at h
  | cons lang rest ih =>
    intro r h
    simp only [tryLangs] at h
    cases hs : langStep f lang with
    | some r' =>
      rw [hs] at h
      exact (Option.some.inj h) ▸ langStep_shape f lang r' hs
    | none =>
      rw [hs] at h
      exact ih r h

/-- A result produced by the auto-detect path is a tagged success. -/
theorem method2_shape (f : FetchOracle) (r : TranscriptResult) :
    method2 f = some r → ∃ t, r = mkSuccess t "auto" "youtube-transcript-api" := by
  intro h
  cases hf : f none with
  | ok items =>
    simp only [method2, hf] at h
    by_cases hlen : items.length > 0
    · rw [if_pos hlen] at h
      by_cases ht : (normalizeNoParen (joinSimple items)).length > 50
      · rw [if_pos ht] at h
        exact ⟨_, (Option.some.inj h).symm⟩
      · rw [if_neg ht] at h; exact absurd h (by simp)
    · rw [if_neg hlen] at h; exact absurd h (by simp)
  | err msg =>
    simp only [method2, hf] at h
    exact Option.noConfusion h

/-- A result produced by the raw timed-text loop is a tagged success. -/
theorem method3Go_shape (rf : RawOracle) :
    ∀ (is : List Nat) (r : TranscriptResult), method3Go rf is = some r →
      ∃ t, r = mkSuccess t "detected" "alternative-api" := by
  intro is
  induction is with
  | nil => intro r h; simp [method3Go] at h
  | cons i rest ih =>
    intro r h
    cases hf : rf i with
    | rerr =>
      simp only [method3Go, hf] at h
      exact ih r h
    | rok d =>
      simp only [method3Go, hf] at h
      by_cases htr : rawTruthy d = true
      · rw [if_pos htr] at h
        by_cases ht : (normalizeNoParen (rawExtract d)).length > 50
        · rw [if_pos ht] at h
          exact ⟨_, (Option.some.inj h).symm⟩
        · rw [if_neg ht] at h; exact ih r h
      · rw [if_neg htr] at h; exact ih r h

/-- When an iteration of the primary loop over a decomposed language list is
the first to produce a result, the loop returns it. -/
theorem tryLangs_append (f : FetchOracle) (ls₁ : List String) (lang : String)
    (ls₂ : List String) (r : TranscriptResult)
    (h1 : ∀ l ∈ ls₁, langStep f l = none) (h2 : langStep f lang = some r) :
    tryLangs f (ls₁ ++ lang :: ls₂) = some r := by
  induction ls₁ with
  | nil => simp [tryLangs, h2]
  | cons l0 rest ih =>
    have hz : langStep f l0 = none := h1 l0 (List.mem_cons_self l0 rest)
    simp only [List.cons_append, tryLangs, hz]
    exact ih (fun l hl => h1 l (List.mem_cons_of_mem l0 hl))

end CaptionLemmas

section ManagerLemmas

open KeyRotation

/-- A failed switch leaves the credential list unchanged, clears the current
id, and certifies that every credential is exhausted. -/
theorem switchToNext_false (s : ManagerState)
    (h : (switchToNextAvailableKey s).1 = false) :
    (switchToNextAvailableKey s).2 = { s with currentKeyId := none } ∧
      ∀ k ∈ s.apiKeys, k.quotaExceeded = true := by
  cases hfil : s.apiKeys.filter (fun k => !k.quotaExceeded) with
  | nil =>
    refine ⟨by simp [switchToNextAvailableKey, hfil], ?_⟩
    intro k hk
    have := List.filter_eq_nil_iff.mp hfil k hk
    simpa using this
  | cons next rest =>
    exfalso
    simp [switchToNextAvailableKey, hfil] at h

/-- The attempt body consults only the current response; two bodies with the
same current response, and retry continuations that agree whenever a retry
is allowed (`rc < 2`), agree. -/
theorem makeRequestBody_congr (st : ManagerState) (resp resp' : Nat → YtResp)
    (now : String) (rc : Nat)
    (retry retry' : ManagerState → Except MErr String × ManagerState)
    (hr : resp rc = resp' rc) (hk : rc < 2 → ∀ s, retry s = retry' s) :
    makeRequestBody st resp now rc retry = makeRequestBody st resp' now rc retry' := by
  cases hg : getActiveKey st with
  | none => simp [makeRequestBody, hg]
  | some ck =>
    simp only [makeRequestBody, hg, hr]
    cases resp' rc with
    | ok d => rfl
    | fail reason code message =>
      dsimp only
      by_cases hcond : (reason = some "quotaExceeded" ∨ code = some 403) ∧ rc < 2
      · rw [if_pos hcond, if_pos hcond]
        by_cases hsw : (switchToNextAvailableKey (markKeyAsExceeded st ck now)).1 = true
        · rw [if_pos hsw, if_pos hsw, hk hcond.2]
        · rw [if_neg hsw, if_neg hsw]
      · rw [if_neg hcond, if_neg hcond]

/-- Responses beyond the retry window (attempt indices above 2) are never
consulted: the caller performs at most three attempts. -/
theorem makeRequestFuel_resp_congr :
    ∀ (fuel : Nat) (st : ManagerState) (resp resp' : Nat → YtResp) (now : String) (rc : Nat),
      (∀ i, rc ≤ i → i ≤ 2 → resp i = resp' i) → rc ≤ 2 →
      makeRequestFuel fuel st resp now rc = makeRequestFuel fuel st resp' now rc := by
  intro fuel
  induction fuel with
  | zero =>
    intro st resp resp' now rc h hrc
    exact makeRequestBody_congr st resp resp' now rc _ _ (h rc le_rfl hrc) (fun _ _ => rfl)
  | succ F ih =>
    intro st resp resp' now rc h hrc
    refine makeRequestBody_congr st resp resp' now rc _ _ (h rc le_rfl hrc) (fun hlt s => ?_)
    exact ih s resp resp' now (rc + 1) (fun i hi1 hi2 => h i (Nat.le_of_succ_le hi1) hi2)
      (by omega)

/-- When the caller's recursion throws the all-exhausted error, every
credential of the final state is exhausted. -/
theorem makeRequestFuel_allExhausted :
    ∀ (fuel : Nat) (st : ManagerState) (resp : Nat → YtResp) (now : String)
      (rc : Nat) (st' : ManagerState),
      3 ≤ rc + fuel →
      makeRequestFuel fuel st resp now rc = (.error .allExhausted, st') →
      ∀ k ∈ st'.apiKeys, k.quotaExceeded = true := by
  intro fuel
  induction fuel with
  | zero =>
    intro st resp now rc st' hb h
    cases hg : getActiveKey st with
    | none =>
      simp only [makeRequestFuel, makeRequestBody, hg] at h
      exact absurd (congrArg Prod.fst h) (by simp)
    | some ck =>
      cases hr : resp rc with
      | ok d =>
        simp only [makeRequestFuel, makeRequestBody, hg, hr] at h
        exact absurd (congrArg Prod.fst h) (by simp)
      | fail reason code message =>
        have hcond : ¬((reason = some "quotaExceeded" ∨ code = some 403) ∧ rc < 2) :=
          fun hco => absurd hco.2 (by omega)
        simp only [makeRequestFuel, makeRequestBody, hg, hr, if_neg hcond] at h
        exact absurd (congrArg Prod.fst h) (by simp)
  | succ F ih =>
    intro st resp now rc st' hb h
    cases hg : getActiveKey st with
    | none =>
      simp only [makeRequestFuel, makeRequestBody, hg] at h
      exact absurd (congrArg Prod.fst h) (by simp)
    | some ck =>
      cases hr : resp rc with
      | ok d =>
        simp only [makeRequestFuel, makeRequestBody, hg, hr] at h
        exact absurd (congrArg Prod.fst h) (by simp)
      | fail reason code message =>
        by_cases hcond : (reason = some "quotaExceeded" ∨ code = some 403) ∧ rc < 2
        · simp only [makeRequestFuel, makeRequestBody, hg, hr, if_pos hcond] at h
          by_cases hsw : (switchToNextAvailableKey (markKeyAsExceeded st ck now)).1 = true
          · rw [if_pos hsw] at h
            exact ih _ resp now (rc + 1) st' (by omega) h
          · rw [if_neg hsw] at h
            simp only [Bool.not_eq_true] at hsw
            obtain ⟨hst, hall⟩ := switchToNext_false (markKeyAsExceeded st ck now) hsw
            have hst' : st' = (switchToNextAvailableKey (markKeyAsExceeded st ck now)).2 :=
              (congrArg Prod.snd h).symm
            intro k hk
            rw [hst', hst] at hk
            exact hall k hk
        · simp only [makeRequestFuel, makeRequestBody, hg, hr, if_neg hcond] at h
          exact absurd (congrArg Prod.fst h) (by simp)

/-- `updateEntry` leaves every field observed by an `f`-invariant projection
unchanged. -/
theorem map_updateEntry {α : Type} (g : ApiKey → α) (f : ApiKey → ApiKey)
    (h : ∀ e, g (f e) = g e) :
    ∀ (l : List ApiKey) (id : String), (updateEntry l id f).map g = l.map g := by
  intro l id
  induction l with
  | nil => rfl
  | cons e r ih =>
    by_cases he : e.id = id
    · simp [updateEntry, he, h e]
    · simp [updateEntry, he, ih]

/-- Lookup after an id-preserving in-place update: the target id yields the
updated entry, any other id is untouched. -/
theorem find?_updateEntry (f : ApiKey → ApiKey) (hf : ∀ e, (f e).id = e.id) :
    ∀ (l : List ApiKey) (id c : String),
      (updateEntry l id f).find? (fun k => k.id = c) =
        if c = id then (l.find? (fun k => k.id = id)).map f
        else l.find? (fun k => k.id = c) := by
  intro l id c
  induction l with
  | nil => by_cases hc : c = id <;> simp [updateEntry, hc]
  | cons e r ih =>
    by_cases he : e.id = id
    · by_cases hc : c = id
      · have hpos : ((f e).id = c) := by rw [hf e, he, hc]
        simp [updateEntry, he, hc, List.find?_cons, hpos]
      · have hneg : ¬((f e).id = c) := by rw [hf e, he]; exact fun h' => hc h'.symm
        have hneg2 : ¬(e.id = c) := by rw [he]; exact fun h' => hc h'.symm
        have hneg3 : ¬(id = c) := fun h' => hc h'.symm
        simp [updateEntry, he, hc, List.find?_cons, hneg, hneg2, hneg3]
    · by_cases hec : e.id = c
      · have hcid : ¬(c = id) := fun h' => he (hec.trans h')
        simp [updateEntry, he, hcid, List.find?_cons, hec]
      · by_cases hc : c = id
        · subst hc
          simp [updateEntry, he, List.find?_cons, hec, ih]
        · simp [updateEntry, he, hc, List.find?_cons, hec, ih]

/-- Inserting a fresh id: lookup of that id finds the new entry. -/
theorem setEntry_find_fresh (e : ApiKey) :
    ∀ l : List ApiKey, (∀ k ∈ l, k.id ≠ e.id) →
      (setEntry l e).find? (fun k => k.id = e.id) = some e := by
  intro l
  induction l with
  | nil => simp [setEntry, List.find?_cons]
  | cons c r ih =>
    intro h
    have hc : ¬(c.id = e.id) := h c (List.mem_cons_self c r)
    simp [setEntry, hc, List.find?_cons, ih (fun k hk => h k (List.mem_cons_of_mem c hk))]

/-- Inserting a fresh id appends it at the end of the insertion order. -/
theorem setEntry_map_id_fresh (e : ApiKey) :
    ∀ l : List ApiKey, (∀ k ∈ l, k.id ≠ e.id) →
      (setEntry l e).map (fun k => k.id) = l.map (fun k => k.id) ++ [e.id] := by
  intro l
  induction l with
  | nil => simp [setEntry]
  | cons c r ih =>
    intro h
    have hc : ¬(c.id = e.id) := h c (List.mem_cons_self c r)
    simp [setEntry, hc, ih (fun k hk => h k (List.mem_cons_of_mem c hk))]

/-- `setActiveKey` permutes no credentials: the id order is unchanged. -/
theorem setActiveKey_map_id (s : ManagerState) (id : String) :
    (setActiveKey s id).2.apiKeys.map (fun k => k.id) = s.apiKeys.map (fun k => k.id) := by
  cases hf : findKey s id with
  | none => simp [setActiveKey, hf]
  | some k =>
    by_cases hq : k.quotaExceeded
    · simp [setActiveKey, hf, hq]
    · have h1 : ∀ (l : List ApiKey) (i : String) (b : Bool),
          (updateEntry l i (fun e => { e with isActive := b })).map (fun k => k.id)
            = l.map (fun k => k.id) :=
        fun l i b =>
          map_updateEntry (fun k => k.id) (fun e => { e with isActive := b }) (fun e => rfl) l i
      cases hc : s.currentKeyId with
      | none => simp [setActiveKey, hf, hq, hc, h1]
      | some cid =>
        by_cases hcid : cid = "" <;> simp [setActiveKey, hf, hq, hc, hcid, h1]

/-- After a fresh insert, lookup of the generated id finds the new record. -/
theorem insertOnly_find_fresh (st : ManagerState) (name key id now : String)
    (hfresh : ∀ k ∈ st.apiKeys, k.id ≠ id) :
    findKey (insertOnly st name key id now) id = some (mkNewKey name key id now) :=
  setEntry_find_fresh (mkNewKey name key id now) st.apiKeys hfresh

/-- Successful activation: the target becomes current, and its stored record
is the old one with `isActive := true`. -/
theorem setActiveKey_success (s : ManagerState) (id : String) (k : ApiKey)
    (hf : findKey s id = some k) (hq : k.quotaExceeded = false) :
    (setActiveKey s id).1 = true ∧
    (setActiveKey s id).2.currentKeyId = some id ∧
    findKey (setActiveKey s id).2 id = some { k with isActive := true } := by
  have hact : ∀ e : ApiKey, ({ e with isActive := true } : ApiKey).id = e.id := fun e => rfl
  have hdeact : ∀ e : ApiKey, ({ e with isActive := false } : ApiKey).id = e.id := fun e => rfl
  refine ⟨by simp [setActiveKey, hf, hq], by simp [setActiveKey, hf, hq], ?_⟩
  unfold setActiveKey
  rw [hf]
  simp only [hq, Bool.false_eq_true, if_false, ite_false]
  unfold findKey
  dsimp only
  rw [find?_updateEntry _ hact, if_pos rfl]
  unfold findKey at hf
  cases hc : s.currentKeyId with
  | none =>
    dsimp only
    rw [hf]
    simp [hq]
  | some cid =>
    dsimp only
    by_cases hcid : cid = ""
    · rw [if_pos hcid]
      rw [hf]
      simp [hq]
    · rw [if_neg hcid]
      dsimp only
      rw [find?_updateEntry _ hdeact]
      by_cases hid : id = cid
      · rw [if_pos hid, ← hid, hf]
        simp [hq]
      · rw [if_neg hid, hf]
        simp [hq]

/-- Any two fuel bounds that dominate the remaining retry window give the
same behavior (there the zero-fuel continuation is unreachable). -/
theorem makeRequestFuel_fuel_congr :
    ∀ (fuel fuel' : Nat) (st : ManagerState) (resp : Nat → YtResp) (now : String) (rc : Nat),
      3 ≤ rc + fuel → 3 ≤ rc + fuel' →
      makeRequestFuel fuel st resp now rc = makeRequestFuel fuel' st resp now rc := by
  intro fuel
  induction fuel with
  | zero =>
    intro fuel' st resp now rc hb hb'
    cases fuel' with
    | zero => rfl
    | succ F' =>
      exact makeRequestBody_congr st resp resp now rc _ _ rfl
        (fun hlt => absurd hlt (by omega))
  | succ F ih =>
    intro fuel' st resp now rc hb hb'
    cases fuel' with
    | zero =>
      exact makeRequestBody_congr st resp resp now rc _ _ rfl
        (fun hlt => absurd hlt (by omega))
    | succ F' =>
      exact makeRequestBody_congr st resp resp now rc _ _ rfl
        (fun _ s => ih F' s resp now (rc + 1) (by omega) (by omega))

/-- Lookup hits the head of the first-match decomposition. -/
theorem find?_first_match (p : ApiKey → Bool) :
    ∀ (l1 : List ApiKey) (e : ApiKey) (l2 : List ApiKey),
      (∀ x ∈ l1, p x = false) → p e = true → (l1 ++ e :: l2).find? p = some e := by
  intro l1 e l2
  induction l1 with
  | nil => intro _ hp; simp [List.find?_cons, hp]
  | cons c r ih =>
    intro h hp
    have hc := h c (List.mem_cons_self c r)
    simp only [List.cons_append, List.find?_cons, hc]
    exact ih (fun x hx => h x (List.mem_cons_of_mem c hx)) hp

/-- Marking on a first-match decomposition updates exactly that entry. -/
theorem markFirstByValue_decomp (kv now : String) :
    ∀ (l1 : List ApiKey) (e : ApiKey) (l2 : List ApiKey),
      (∀ x ∈ l1, x.key ≠ kv) → e.key = kv →
      markFirstByValue (l1 ++ e :: l2) kv now
        = l1 ++ { e with quotaExceeded := true, lastChecked := now } :: l2 := by
  intro l1 e l2
  induction l1 with
  | nil => intro _ hp; simp [markFirstByValue, hp]
  | cons c r ih =>
    intro h hp
    have hc := h c (List.mem_cons_self c r)
    simp only [List.cons_append, markFirstByValue, hc, if_false, ite_false, List.append_eq]
    rw [ih (fun x hx => h x (List.mem_cons_of_mem c hx)) hp]

/-- Failover changes at most `isActive` flags and the current id: viewed
with `isActive` erased, the credential list is untouched. -/
theorem switchToNext_map_eraseActive (s : ManagerState) :
    ((switchToNextAvailableKey s).2.apiKeys).map (fun k => { k with isActive := false })
      = s.apiKeys.map (fun k => { k with isActive := false }) := by
  have h1 : ∀ (l : List ApiKey) (i : String) (b : Bool),
      (updateEntry l i (fun e => { e with isActive := b })).map
          (fun k => ({ k with isActive := false } : ApiKey))
        = l.map (fun k => ({ k with isActive := false } : ApiKey)) :=
    fun l i b =>
      map_updateEntry (fun k => ({ k with isActive := false } : ApiKey))
        (fun e => { e with isActive := b }) (fun e => rfl) l i
  cases hfil : s.apiKeys.filter (fun k => !k.quotaExceeded) with
  | nil => simp [switchToNextAvailableKey, hfil]
  | cons next rest =>
    cases hc : s.currentKeyId with
    | none => simp [switchToNextAvailableKey, hfil, hc, h1]
    | some cid =>
      by_cases hcid : cid = "" <;> simp [switchToNextAvailableKey, hfil, hc, hcid, h1]

end ManagerLemmas

section NormalizationLemmas

open Caption

theorem pairFree_of_no_close (op cl : Char) :
    ∀ l : List Char, cl ∉ l → PairFree op cl l := by
  intro l
  induction l with
  | nil => intro _; trivial
  | cons c r ih =>
    intro h
    exact ⟨fun _ => fun hm => h (List.mem_cons_of_mem c hm),
      ih (fun hm => h (List.mem_cons_of_mem c hm))⟩

theorem pairFree_sublist (op cl : Char) :
    ∀ {l' l : List Char}, l'.Sublist l → PairFree op cl l → PairFree op cl l' := by
  intro l' l h
  induction h with
  | slnil => intro _; trivial
  | cons a h ih => intro hp; exact ih hp.2
  | cons₂ a h ih =>
    intro hp
    exact ⟨fun hop hm => hp.1 hop (h.mem hm), ih hp.2⟩

theorem dropThroughFirst_length (cl : Char) :
    ∀ l : List Char, cl ∈ l → (dropThroughFirst cl l).length < l.length := by
  intro l
  induction l with
  | nil => intro h; cases h
  | cons c r ih =>
    intro h
    by_cases hc : c = cl
    · simp [dropThroughFirst, hc]
    · have hr : cl ∈ r := by
        cases List.mem_cons.mp h with
        | inl h' => exact absurd h'.symm hc
        | inr h' => exact h'
      simp only [dropThroughFirst, hc, if_neg hc, List.length_cons]
      exact Nat.lt_succ_of_lt (ih hr)

theorem dropThroughFirst_sublist (cl : Char) :
    ∀ l : List Char, (dropThroughFirst cl l).Sublist l := by
  intro l
  induction l with
  | nil => simp [dropThroughFirst]
  | cons c r ih =>
    by_cases hc : c = cl
    · simp only [dropThroughFirst, if_pos hc]
      exact List.sublist_cons_self c r
    · simp only [dropThroughFirst, if_neg hc]
      exact ih.trans (List.sublist_cons_self c r)

theorem stripGo_pairFree_fix (nl : Bool) (op cl : Char) :
    ∀ (n : Nat) (l : List Char), l.length ≤ n →
      (PairFree op cl l → stripGo nl op cl l none = l) ∧
      (PairFree op cl l → cl ∉ l → ∀ buf, stripGo nl op cl l (some buf) = buf.reverse ++ l) := by
  intro n
  induction n with
  | zero =>
    intro l hl
    have : l = [] := List.length_eq_zero.mp (Nat.le_zero.mp hl)
    subst this
    exact ⟨fun _ => rfl, fun _ _ buf => by simp [stripGo]⟩
  | succ n ih =>
    intro l hl
    cases l with
    | nil => exact ⟨fun _ => rfl, fun _ _ buf => by simp [stripGo]⟩
    | cons c r =>
      have hr : r.length ≤ n := by simpa using Nat.succ_le_succ_iff.mp (by simpa using hl)
      constructor
      · intro hpf
        obtain ⟨h1, h2⟩ := hpf
        by_cases hc : c = op
        · simp only [stripGo, if_pos hc]
          rw [(ih r hr).2 h2 (h1 hc) [c]]
          simp
        · simp only [stripGo, if_neg hc]
          rw [(ih r hr).1 h2]
      · intro hpf hcl buf
        obtain ⟨h1, h2⟩ := hpf
        have hccl : ¬(c = cl) := fun h => hcl (h ▸ List.mem_cons_self c r)
        have hrcl : cl ∉ r := fun hm => hcl (List.mem_cons_of_mem c hm)
        simp only [stripGo, if_neg hccl]
        by_cases hlt : (nl && isLineTerm c) = true
        · simp only [hlt, if_true]
          rw [(ih r hr).1 h2]
        · have hlt' : (nl && isLineTerm c) = false := Bool.not_eq_true _ |>.mp hlt
          simp only [hlt', Bool.false_eq_true, if_false]
          rw [(ih r hr).2 h2 hrcl (c :: buf)]
          simp

theorem stripGo_some_mem_close (op cl : Char) :
    ∀ l : List Char, (∀ c ∈ l, isLineTerm c = false) → cl ∈ l → ∀ buf,
      stripGo true op cl l (some buf)
        = stripGo true op cl (dropThroughFirst cl l) none := by
  intro l
  induction l with
  | nil => intro _ h; cases h
  | cons c r ih =>
    intro hnl h buf
    by_cases hc : c = cl
    · simp [stripGo, hc, dropThroughFirst]
    · have hr : cl ∈ r := by
        cases List.mem_cons.mp h with
        | inl h' => exact absurd h'.symm hc
        | inr h' => exact h'
      have hcl : isLineTerm c = false := hnl c (List.mem_cons_self c r)
      simp only [stripGo, if_neg hc, hcl, Bool.and_false, Bool.false_eq_true, if_false,
        dropThroughFirst]
      rw [ih (fun x hx => hnl x (List.mem_cons_of_mem c hx)) hr (c :: buf)]

theorem stripGo_pairFree (op cl : Char) :
    ∀ (n : Nat) (l : List Char), l.length ≤ n → (∀ c ∈ l, isLineTerm c = false) →
      PairFree op cl (stripGo true op cl l none) := by
  intro n
  induction n with
  | zero =>
    intro l hl _
    have : l = [] := List.length_eq_zero.mp (Nat.le_zero.mp hl)
    subst this
    trivial
  | succ n ih =>
    intro l hl hnl
    cases l with
    | nil => trivial
    | cons c r =>
      have hr : r.length ≤ n := by simpa using Nat.succ_le_succ_iff.mp (by simpa using hl)
      have hnlr : ∀ x ∈ r, isLineTerm x = false := fun x hx => hnl x (List.mem_cons_of_mem c hx)
      by_cases hc : c = op
      · simp only [stripGo, if_pos hc]
        by_cases hcl : cl ∈ r
        · rw [stripGo_some_mem_close op cl r hnlr hcl [c]]
          refine ih (dropThroughFirst cl r) ?_ ?_
          · exact Nat.le_of_lt (Nat.lt_of_lt_of_le (dropThroughFirst_length cl r hcl) hr)
          · exact fun x hx => hnlr x ((dropThroughFirst_sublist cl r).mem hx)
        · rw [(stripGo_pairFree_fix true op cl r.length r le_rfl).2
            (pairFree_of_no_close op cl r hcl) hcl [c]]
          simp only [List.reverse_cons, List.reverse_nil, List.nil_append, List.singleton_append]
          exact ⟨fun _ => hcl, pairFree_of_no_close op cl r hcl⟩
      · simp only [stripGo, if_neg hc]
        exact ⟨fun h => absurd h hc, ih r hr hnlr⟩

theorem mem_collapseAux :
    ∀ (l : List Char) (b : Bool) (x : Char), x ∈ collapseAux l b →
      x = ' ' ∨ (x ∈ l ∧ isSpaceChar x = false) := by
  intro l
  induction l with
  | nil => intro b x h; simp [collapseAux] at h
  | cons c r ih =>
    intro b x h
    by_cases hc : isSpaceChar c = true
    · simp only [collapseAux, hc, if_true] at h
      cases b with
      | true =>
        rcases ih true x h with h' | h'
        · exact Or.inl h'
        · exact Or.inr ⟨List.mem_cons_of_mem c h'.1, h'.2⟩
      | false =>
        rcases List.mem_cons.mp h with h' | h'
        · exact Or.inl h'
        · rcases ih true x h' with h'' | h''
          · exact Or.inl h''
          · exact Or.inr ⟨List.mem_cons_of_mem c h''.1, h''.2⟩
    · simp only [collapseAux, hc, Bool.false_eq_true, if_false] at h
      rcases List.mem_cons.mp h with h' | h'
      · exact Or.inr ⟨h' ▸ List.mem_cons_self c r, h' ▸ (Bool.not_eq_true _).mp hc⟩
      · rcases ih false x h' with h'' | h''
        · exact Or.inl h''
        · exact Or.inr ⟨List.mem_cons_of_mem c h''.1, h''.2⟩

theorem pairFree_collapseAux (op cl : Char) (hop : op ≠ ' ') (hcl : cl ≠ ' ') :
    ∀ (l : List Char) (b : Bool), PairFree op cl l → PairFree op cl (collapseAux l b) := by
  intro l
  induction l with
  | nil => intro b _; trivial
  | cons c r ih =>
    intro b hpf
    obtain ⟨h1, h2⟩ := hpf
    have hclr : cl ∉ r → cl ∉ collapseAux r true ∧ cl ∉ collapseAux r false := by
      intro hn
      constructor <;> intro hm <;> rcases mem_collapseAux r _ cl hm with h' | h'
      exacts [hcl h', hn h'.1, hcl h', hn h'.1]
    by_cases hc : isSpaceChar c = true
    · have hcop : ¬(' ' = op) := fun h => hop h.symm
      simp only [collapseAux, hc, if_true]
      cases b with
      | true => exact ih true h2
      | false => exact ⟨fun h => absurd h hcop, ih true h2⟩
    · simp only [collapseAux, hc, Bool.false_eq_true, if_false]
      exact ⟨fun hcO => (hclr (h1 hcO)).2, ih false h2⟩

theorem collapseAux_chain :
    ∀ l : List Char,
      List.Chain' (fun a b => ¬(isSpaceChar a = true ∧ isSpaceChar b = true))
          (collapseAux l false) ∧
      (List.Chain' (fun a b => ¬(isSpaceChar a = true ∧ isSpaceChar b = true))
          (collapseAux l true) ∧ HeadNotSpace (collapseAux l true)) := by
  intro l
  induction l with
  | nil =>
    refine ⟨List.chain'_nil, List.chain'_nil, ?_⟩
    intro c h
    simp [collapseAux] at h
  | cons c r ih =>
    obtain ⟨ihf, iht, ihh⟩ := ih
    by_cases hc : isSpaceChar c = true
    · refine ⟨?_, ?_, ?_⟩
      · simp only [collapseAux, hc, if_true]
        refine List.chain'_cons'.mpr ⟨?_, iht⟩
        intro y hy
        intro hcon
        exact absurd hcon.2 (by simp [ihh y hy])
      · simp only [collapseAux, hc, if_true]
        exact iht
      · simp only [collapseAux, hc, if_true]
        exact ihh
    · have hcf : isSpaceChar c = false := (Bool.not_eq_true _).mp hc
      refine ⟨?_, ?_, ?_⟩
      · simp only [collapseAux, hc, Bool.false_eq_true, if_false]
        refine List.chain'_cons'.mpr ⟨?_, ihf⟩
        intro y _ hcon
        exact absurd hcon.1 hc
      · simp only [collapseAux, hc, Bool.false_eq_true, if_false]
        refine List.chain'_cons'.mpr ⟨?_, ihf⟩
        intro y _ hcon
        exact absurd hcon.1 hc
      · simp only [collapseAux, hc, Bool.false_eq_true, if_false]
        intro x hx
        rw [List.head?_cons] at hx
        exact (Option.some.inj hx) ▸ hcf

theorem collapseAux_fix :
    ∀ l : List Char, SingleSpaced l →
      (collapseAux l false = l) ∧ (HeadNotSpace l → collapseAux l true = l) := by
  intro l
  induction l with
  | nil => intro _; exact ⟨rfl, fun _ => rfl⟩
  | cons c r ih =>
    intro hss
    obtain ⟨hsp, hch⟩ := hss
    have hssr : SingleSpaced r :=
      ⟨fun x hx => hsp x (List.mem_cons_of_mem c hx), (List.chain'_cons'.mp hch).2⟩
    have ihr := ih hssr
    by_cases hc : isSpaceChar c = true
    · have hc' : c = ' ' := hsp c (List.mem_cons_self c r) hc
      have hhr : HeadNotSpace r := by
        intro y hy
        have := (List.chain'_cons'.mp hch).1 y hy
        by_cases hys : isSpaceChar y = true
        · exact absurd ⟨hc, hys⟩ this
        · exact (Bool.not_eq_true _).mp hys
      constructor
      · simp only [collapseAux, hc, if_true]
        have hdw : collapseAux r true = r := ihr.2 hhr
        rw [hdw, hc']
        simp
      · intro hh
        exact absurd hc (by simp [hh c List.head?_cons])
    · constructor
      · simp only [collapseAux, hc, Bool.false_eq_true, if_false]
        rw [ihr.1]
      · intro _
        simp only [collapseAux, hc, Bool.false_eq_true, if_false]
        rw [ihr.1]

theorem trimChars_prefix_core (l : List Char) :
    trimChars l <+: l.dropWhile isSpaceChar := by
  have h2' : ((l.dropWhile isSpaceChar).reverse.dropWhile isSpaceChar)
      <:+ (l.dropWhile isSpaceChar).reverse := List.dropWhile_suffix isSpaceChar
  have h2 := List.reverse_prefix.mpr h2'
  rw [List.reverse_reverse] at h2
  exact h2

theorem trimChars_mid (l : List Char) : trimChars l <:+: l := by
  have h1 : l.dropWhile isSpaceChar <:+ l := List.dropWhile_suffix isSpaceChar
  exact (trimChars_prefix_core l).isInfix.trans h1.isInfix

theorem trimChars_sublist (l : List Char) : (trimChars l).Sublist l :=
  (trimChars_mid l).sublist

theorem head?_dropWhile (p : Char → Bool) :
    ∀ (l : List Char) (c : Char), (l.dropWhile p).head? = some c → p c = false := by
  intro l
  induction l with
  | nil => intro c h; simp [List.dropWhile] at h
  | cons a r ih =>
    intro c h
    by_cases ha : p a = true
    · rw [List.dropWhile_cons_of_pos ha] at h
      exact ih c h
    · rw [List.dropWhile_cons_of_neg ha] at h
      rw [List.head?_cons] at h
      exact (Option.some.inj h) ▸ (Bool.not_eq_true _).mp ha

theorem prefix_head? {l t : List Char} (h : t <+: l) (c : Char) (hc : t.head? = some c) :
    l.head? = some c := by
  obtain ⟨u, rfl⟩ := h
  cases t with
  | nil => simp at hc
  | cons a r => rw [List.head?_cons] at hc; simp [hc.symm]

theorem trim_headNotSpace (l : List Char) :
    HeadNotSpace (trimChars l) ∧ HeadNotSpace (trimChars l).reverse := by
  constructor
  · intro c hc
    exact head?_dropWhile isSpaceChar l c (prefix_head? (trimChars_prefix_core l) c hc)
  · intro c hc
    unfold trimChars at hc
    rw [List.reverse_reverse] at hc
    exact head?_dropWhile isSpaceChar (l.dropWhile isSpaceChar).reverse c hc

theorem dropWhile_eq_self_of_head (p : Char → Bool) (l : List Char)
    (h : ∀ c, l.head? = some c → p c = false) : l.dropWhile p = l := by
  cases l with
  | nil => rfl
  | cons a r =>
    have := h a List.head?_cons
    rw [List.dropWhile_cons_of_neg (by simp [this])]

theorem trim_fix (l : List Char) (h1 : HeadNotSpace l) (h2 : HeadNotSpace l.reverse) :
    trimChars l = l := by
  unfold trimChars
  rw [dropWhile_eq_self_of_head isSpaceChar l h1,
    dropWhile_eq_self_of_head isSpaceChar l.reverse h2, List.reverse_reverse]

theorem singleSpaced_of_infix {l' l : List Char} (h : l' <:+: l)
    (hss : SingleSpaced l) : SingleSpaced l' :=
  ⟨fun c hc hs => hss.1 c (h.sublist.mem hc) hs, List.Chain'.infix hss.2 h⟩

end NormalizationLemmas

section ManagerInvLemmas

open KeyRotation

theorem mem_updateEntry_weak :
    ∀ (l : List ApiKey) (i : String) (f : ApiKey → ApiKey) (k' : ApiKey),
      k' ∈ updateEntry l i f → k' ∈ l ∨ ∃ k ∈ l, k' = f k := by
  intro l i f k'
  induction l with
  | nil => intro h; simp [updateEntry] at h
  | cons e r ih =>
    intro h
    by_cases he : e.id = i
    · simp only [updateEntry, he, if_pos rfl] at h
      rcases List.mem_cons.mp h with h' | h'
      · exact Or.inr ⟨e, List.mem_cons_self e r, h'⟩
      · exact Or.inl (List.mem_cons_of_mem e h')
    · simp only [updateEntry, he, if_neg he] at h
      rcases List.mem_cons.mp h with h' | h'
      · exact Or.inl (h' ▸ List.mem_cons_self e r)
      · rcases ih h' with h'' | ⟨k, hk, hk'⟩
        · exact Or.inl (List.mem_cons_of_mem e h'')
        · exact Or.inr ⟨k, List.mem_cons_of_mem e hk, hk'⟩

theorem mem_setEntry :
    ∀ (l : List ApiKey) (e k' : ApiKey), k' ∈ setEntry l e → k' = e ∨ k' ∈ l := by
  intro l e k'
  induction l with
  | nil => intro h; simp [setEntry] at h; exact Or.inl h
  | cons c r ih =>
    intro h
    by_cases hc : c.id = e.id
    · simp only [setEntry, hc, if_pos rfl] at h
      rcases List.mem_cons.mp h with h' | h'
      · exact Or.inl h'
      · exact Or.inr (List.mem_cons_of_mem c h')
    · simp only [setEntry, hc, if_neg hc] at h
      rcases List.mem_cons.mp h with h' | h'
      · exact Or.inr (h' ▸ List.mem_cons_self c r)
      · rcases ih h' with h'' | h''
        · exact Or.inl h''
        · exact Or.inr (List.mem_cons_of_mem c h'')

theorem setEntry_nodup :
    ∀ (l : List ApiKey) (e : ApiKey), (l.map (fun k => k.id)).Nodup →
      ((setEntry l e).map (fun k => k.id)).Nodup := by
  intro l e
  induction l with
  | nil => intro _; simp [setEntry]
  | cons c r ih =>
    intro h
    simp only [List.map_cons, List.nodup_cons] at h
    by_cases hc : c.id = e.id
    · unfold setEntry
      rw [if_pos hc]
      simp only [List.map_cons, List.nodup_cons]
      refine ⟨?_, h.2⟩
      intro hm
      exact h.1 (hc ▸ hm)
    · unfold setEntry
      rw [if_neg hc]
      simp only [List.map_cons, List.nodup_cons]
      constructor
      · intro hm
        rcases List.mem_map.mp hm with ⟨k, hk, hkid⟩
        rcases mem_setEntry r e k hk with h' | h'
        · exact hc (by rw [← hkid, h'])
        · exact h.1 (List.mem_map.mpr ⟨k, h', hkid⟩)
      · exact ih h.2

theorem removeEntry_sublist :
    ∀ (l : List ApiKey) (id : String), (removeEntry l id).Sublist l := by
  intro l id
  induction l with
  | nil => simp [removeEntry]
  | cons e r ih =>
    by_cases he : e.id = id
    · simp only [removeEntry, he, if_pos rfl]
      exact List.sublist_cons_self e r
    · simp only [removeEntry, he, if_neg he]
      exact ih.cons₂ e

theorem removeEntry_find?_ne :
    ∀ (l : List ApiKey) (id c : String), c ≠ id →
      (removeEntry l id).find? (fun k => k.id = c) = l.find? (fun k => k.id = c) := by
  intro l id c hc
  induction l with
  | nil => rfl
  | cons e r ih =>
    by_cases he : e.id = id
    · have hec : ¬(e.id = c) := fun h' => hc (h'.symm.trans he)
      unfold removeEntry
      rw [if_pos he, List.find?_cons_of_neg _ (by simp [hec])]
    · unfold removeEntry
      rw [if_neg he]
      by_cases hec : e.id = c
      · rw [List.find?_cons_of_pos _ (by simp [hec]), List.find?_cons_of_pos _ (by simp [hec])]
      · rw [List.find?_cons_of_neg _ (by simp [hec]), List.find?_cons_of_neg _ (by simp [hec]), ih]

theorem mem_markFirstByValue :
    ∀ (l : List ApiKey) (kv now : String) (k' : ApiKey), k' ∈ markFirstByValue l kv now →
      ∃ k0 ∈ l, k'.id = k0.id ∧ k'.key = k0.key ∧
        (k'.quotaExceeded = true ∨ k'.quotaExceeded = k0.quotaExceeded) := by
  intro l kv now k'
  induction l with
  | nil => intro h; simp [markFirstByValue] at h
  | cons e r ih =>
    intro h
    by_cases he : e.key = kv
    · simp only [markFirstByValue, he, if_pos rfl] at h
      rcases List.mem_cons.mp h with h' | h'
      · exact ⟨e, List.mem_cons_self e r, by simp [h'], by simp [h', he], Or.inl (by simp [h'])⟩
      · exact ⟨k', List.mem_cons_of_mem e h', rfl, rfl, Or.inr rfl⟩
    · simp only [markFirstByValue, he, if_neg he] at h
      rcases List.mem_cons.mp h with h' | h'
      · exact ⟨e, List.mem_cons_self e r, by simp [h'], by simp [h'], Or.inr (by simp [h'])⟩
      · rcases ih h' with ⟨k0, hk0, h1, h2, h3⟩
        exact ⟨k0, List.mem_cons_of_mem e hk0, h1, h2, h3⟩

theorem markFirstByValue_map_id :
    ∀ (l : List ApiKey) (kv now : String),
      (markFirstByValue l kv now).map (fun k => k.id) = l.map (fun k => k.id) := by
  intro l kv now
  induction l with
  | nil => rfl
  | cons e r ih =>
    by_cases he : e.key = kv
    · simp [markFirstByValue, he]
    · simp [markFirstByValue, he, ih]

theorem markFirstByValue_find?_id :
    ∀ (l : List ApiKey) (kv now c : String) (k : ApiKey),
      l.find? (fun x => x.key = kv) = some k → c ≠ k.id →
      (markFirstByValue l kv now).find? (fun x => x.id = c)
        = l.find? (fun x => x.id = c) := by
  intro l kv now c
  induction l with
  | nil => intro k h; simp at h
  | cons e r ih =>
    intro k h hc
    by_cases he : e.key = kv
    · have hek : e = k := by
        rw [List.find?_cons_of_pos _ (by simp [he])] at h
        exact Option.some.inj h
      have hid : ¬(e.id = c) := fun h' => hc (hek ▸ h'.symm)
      simp only [markFirstByValue, he, if_pos rfl, List.find?_cons]
      simp [hid]
    · have hr : r.find? (fun x => x.key = kv) = some k := by
        rw [List.find?_cons_of_neg _ (by simp [he])] at h
        exact h
      simp only [markFirstByValue, he, if_neg he, List.find?_cons]
      by_cases hec : e.id = c
      · simp [hec]
      · simp [hec, ih k hr hc]

theorem find?_of_nodup_mem :
    ∀ (l : List ApiKey) (k : ApiKey), (l.map (fun x => x.id)).Nodup → k ∈ l →
      l.find? (fun x => x.id = k.id) = some k := by
  intro l k
  induction l with
  | nil => intro _ h; cases h
  | cons e r ih =>
    intro hnd hm
    simp only [List.map_cons, List.nodup_cons] at hnd
    rcases List.mem_cons.mp hm with h' | h'
    · subst h'
      simp [List.find?_cons]
    · have hne : ¬(e.id = k.id) := by
        intro heq
        exact hnd.1 (List.mem_map.mpr ⟨k, h', heq.symm⟩)
      rw [List.find?_cons_of_neg _ (by simp [hne])]
      exact ih hnd.2 h'

theorem find?_map_field (f : ApiKey → ApiKey) (hf : ∀ e, (f e).id = e.id) :
    ∀ (l : List ApiKey) (c : String),
      (l.map f).find? (fun x => x.id = c) = (l.find? (fun x => x.id = c)).map f := by
  intro l c
  induction l with
  | nil => rfl
  | cons e r ih =>
    by_cases he : e.id = c
    · rw [List.map_cons, List.find?_cons_of_pos _ (by simp [hf e, he]),
        List.find?_cons_of_pos _ (by simp [he])]
      rfl
    · rw [List.map_cons, List.find?_cons_of_neg _ (by simp [hf e, he]),
        List.find?_cons_of_neg _ (by simp [he]), ih]

theorem getActiveKey_some_spec (st : ManagerState) (s : String) :
    getActiveKey st = some s →
    ∃ c k, st.currentKeyId = some c ∧ findKey st c = some k ∧
      k.quotaExceeded = false ∧ k.key = s := by
  intro h
  cases hc : st.currentKeyId with
  | none => simp [getActiveKey, hc] at h
  | some c =>
    by_cases hce : c = ""
    · simp [getActiveKey, hc, hce] at h
    · cases hf : findKey st c with
      | none => simp [getActiveKey, hc, hce, hf] at h
      | some k =>
        by_cases hq : k.quotaExceeded = true
        · simp [getActiveKey, hc, hce, hf, hq] at h
        · by_cases hk : k.key = ""
          · simp [getActiveKey, hc, hce, hf, hq, hk] at h
          · refine ⟨c, k, rfl, hf, (Bool.not_eq_true _).mp hq, ?_⟩
            have h2 : some k.key = some s := by
              simpa [getActiveKey, hc, hce, hf, hq, hk] using h
            exact Option.some.inj h2

theorem inv_usable_getActive (st : ManagerState) (hinv : Inv st)
    (h : ∃ k ∈ st.apiKeys, k.quotaExceeded = false) :
    ∃ s, getActiveKey st = some s := by
  obtain ⟨hA, hB, _, _, hD⟩ := hinv
  obtain ⟨c, k, hc, hf, hq⟩ := hD h
  have hmem : k ∈ st.apiKeys := List.mem_of_find?_eq_some hf
  have hkid : k.id = c := by simpa using List.find?_some hf
  have hcne : c ≠ "" := hkid ▸ hB k hmem
  have hkey : k.key ≠ "" := hA k hmem
  exact ⟨k.key, by simp [getActiveKey, hc, hcne, hf, hq, hkey]⟩

theorem inv_activate_core (base : List ApiKey) (tid : String) (k : ApiKey)
    (hA : ∀ x ∈ base, x.key ≠ "") (hB : ∀ x ∈ base, x.id ≠ "")
    (hU : (base.map (fun x => x.id)).Nodup)
    (hq : k.quotaExceeded = false)
    (hfind : base.find? (fun x => x.id = tid) = some k ∨
      base.find? (fun x => x.id = tid) = some { k with isActive := false }) :
    Inv ⟨updateEntry base tid (fun e => { e with isActive := true }), some tid⟩ := by
  have hact : ∀ e : ApiKey, ({ e with isActive := true } : ApiKey).id = e.id := fun e => rfl
  have hfind2 : (updateEntry base tid (fun e => { e with isActive := true })).find?
      (fun x => x.id = tid) = some { k with isActive := true } := by
    rw [find?_updateEntry _ hact base tid tid, if_pos rfl]
    rcases hfind with h | h <;> rw [h] <;> rfl
  have hmem2 : ({ k with isActive := true } : ApiKey)
      ∈ updateEntry base tid (fun e => { e with isActive := true }) :=
    List.mem_of_find?_eq_some hfind2
  refine ⟨?_, ?_, ?_, ?_, ?_⟩
  · intro x hx
    rcases mem_updateEntry_weak base tid _ x hx with h' | ⟨k0, hk0, rfl⟩
    · exact hA x h'
    · exact hA k0 hk0
  · intro x hx
    rcases mem_updateEntry_weak base tid _ x hx with h' | ⟨k0, hk0, rfl⟩
    · exact hB x h'
    · exact hB k0 hk0
  · rw [map_updateEntry (fun x => x.id) (fun e => { e with isActive := true })
      (fun e => rfl) base tid]
    exact hU
  · intro c hc
    have hcc : c = tid := by simpa using hc.symm
    subst hcc
    have : ({ k with isActive := true } : ApiKey).id = c := by
      simpa using List.find?_some hfind2
    exact ⟨{ k with isActive := true }, hmem2, this⟩
  · intro _
    exact ⟨tid, { k with isActive := true }, rfl, hfind2, hq⟩

theorem switchToNext_inv (st : ManagerState)
    (hA : ∀ k ∈ st.apiKeys, k.key ≠ "") (hB : ∀ k ∈ st.apiKeys, k.id ≠ "")
    (hU : (st.apiKeys.map (fun k => k.id)).Nodup) :
    Inv (switchToNextAvailableKey st).2 := by
  cases hfil : st.apiKeys.filter (fun k => !k.quotaExceeded) with
  | nil =>
    simp only [switchToNextAvailableKey, hfil]
    refine ⟨hA, hB, hU, ?_, ?_⟩
    · intro c hc
      simp at hc
    · intro hex
      exfalso
      obtain ⟨k, hk, hq⟩ := hex
      have := List.filter_eq_nil_iff.mp hfil k hk
      simp [hq] at this
  | cons next rest =>
    have hnextfil : next ∈ st.apiKeys.filter (fun k => !k.quotaExceeded) := by
      rw [hfil]; exact List.mem_cons_self next rest
    have hnextmem : next ∈ st.apiKeys := List.mem_of_mem_filter hnextfil
    have hnextq : next.quotaExceeded = false := by
      have := List.of_mem_filter hnextfil
      simpa using this
    have hfindst : st.apiKeys.find? (fun x => x.id = next.id) = some next :=
      find?_of_nodup_mem st.apiKeys next hU hnextmem
    cases hc : st.currentKeyId with
    | none =>
      simp only [switchToNextAvailableKey, hfil, hc]
      exact inv_activate_core st.apiKeys next.id next hA hB hU hnextq (Or.inl hfindst)
    | some cid =>
      by_cases hcid : cid = ""
      · simp only [switchToNextAvailableKey, hfil, hc, hcid, if_pos rfl]
        exact inv_activate_core st.apiKeys next.id next hA hB hU hnextq (Or.inl hfindst)
      · simp only [switchToNextAvailableKey, hfil, hc, if_neg hcid]
        have hdeact : ∀ e : ApiKey, ({ e with isActive := false } : ApiKey).id = e.id :=
          fun e => rfl
        have hA' : ∀ x ∈ updateEntry st.apiKeys cid (fun e => { e with isActive := false }),
            x.key ≠ "" := by
          intro x hx
          rcases mem_updateEntry_weak _ _ _ x hx with h' | ⟨k0, hk0, rfl⟩
          · exact hA x h'
          · exact hA k0 hk0
        have hB' : ∀ x ∈ updateEntry st.apiKeys cid (fun e => { e with isActive := false }),
            x.id ≠ "" := by
          intro x hx
          rcases mem_updateEntry_weak _ _ _ x hx with h' | ⟨k0, hk0, rfl⟩
          · exact hB x h'
          · exact hB k0 hk0
        have hU' : ((updateEntry st.apiKeys cid
            (fun e => { e with isActive := false })).map (fun x => x.id)).Nodup := by
          rw [map_updateEntry (fun x => x.id) (fun e => { e with isActive := false })
            (fun e => rfl) st.apiKeys cid]
          exact hU
        have hfind' : (updateEntry st.apiKeys cid
              (fun e => { e with isActive := false })).find? (fun x => x.id = next.id)
              = some next ∨
            (updateEntry st.apiKeys cid
              (fun e => { e with isActive := false })).find? (fun x => x.id = next.id)
              = some { next with isActive := false } := by
          rw [find?_updateEntry _ hdeact st.apiKeys cid next.id]
          by_cases hnc : next.id = cid
          · rw [if_pos hnc, ← hnc, hfindst]
            exact Or.inr rfl
          · rw [if_neg hnc, hfindst]
            exact Or.inl rfl
        exact inv_activate_core _ next.id next hA' hB' hU' hnextq hfind'

theorem mem_setEntry_self : ∀ (l : List ApiKey) (e : ApiKey), e ∈ setEntry l e := by
  intro l e
  induction l with
  | nil => simp [setEntry]
  | cons c r ih =>
    by_cases hc : c.id = e.id
    · unfold setEntry; rw [if_pos hc]; exact List.mem_cons_self e r
    · unfold setEntry; rw [if_neg hc]; exact List.mem_cons_of_mem c ih

theorem mem_setEntry_of_ne :
    ∀ (l : List ApiKey) (e k : ApiKey), k ∈ l → k.id ≠ e.id → k ∈ setEntry l e := by
  intro l e k
  induction l with
  | nil => intro h _; cases h
  | cons c r ih =>
    intro hm hne
    by_cases hc : c.id = e.id
    · unfold setEntry; rw [if_pos hc]
      rcases List.mem_cons.mp hm with rfl | h'
      · exact absurd hc hne
      · exact List.mem_cons_of_mem e h'
    · unfold setEntry; rw [if_neg hc]
      rcases List.mem_cons.mp hm with rfl | h'
      · exact List.mem_cons_self k _
      · exact List.mem_cons_of_mem c (ih h' hne)

theorem find?_setEntry_self :
    ∀ (l : List ApiKey) (e : ApiKey), (setEntry l e).find? (fun x => x.id = e.id) = some e := by
  intro l e
  induction l with
  | nil => simp [setEntry, List.find?_cons]
  | cons c r ih =>
    by_cases hc : c.id = e.id
    · unfold setEntry; rw [if_pos hc]
      exact List.find?_cons_of_pos _ (by simp)
    · unfold setEntry; rw [if_neg hc]
      rw [List.find?_cons_of_neg _ (by simp [hc])]
      exact ih

theorem mem_removeEntry_of_ne :
    ∀ (l : List ApiKey) (id : String) (k : ApiKey), k ∈ l → k.id ≠ id →
      k ∈ removeEntry l id := by
  intro l id k
  induction l with
  | nil => intro h _; cases h
  | cons c r ih =>
    intro hm hne
    by_cases hc : c.id = id
    · unfold removeEntry; rw [if_pos hc]
      rcases List.mem_cons.mp hm with rfl | h'
      · exact absurd hc hne
      · exact h'
    · unfold removeEntry; rw [if_neg hc]
      rcases List.mem_cons.mp hm with rfl | h'
      · exact List.mem_cons_self k _
      · exact List.mem_cons_of_mem c (ih h' hne)

theorem inv_activate_after_deact (l : List ApiKey) (cid tid : String) (k : ApiKey)
    (hA : ∀ x ∈ l, x.key ≠ "") (hB : ∀ x ∈ l, x.id ≠ "")
    (hU : (l.map (fun x => x.id)).Nodup)
    (hq : k.quotaExceeded = false)
    (hfind : l.find? (fun x => x.id = tid) = some k) :
    Inv ⟨updateEntry (updateEntry l cid (fun e => { e with isActive := false }))
          tid (fun e => { e with isActive := true }), some tid⟩ := by
  have hdeact : ∀ e : ApiKey, ({ e with isActive := false } : ApiKey).id = e.id := fun e => rfl
  have hA' : ∀ x ∈ updateEntry l cid (fun e => { e with isActive := false }), x.key ≠ "" := by
    intro x hx
    rcases mem_updateEntry_weak _ _ _ x hx with h' | ⟨k0, hk0, rfl⟩
    · exact hA x h'
    · exact hA k0 hk0
  have hB' : ∀ x ∈ updateEntry l cid (fun e => { e with isActive := false }), x.id ≠ "" := by
    intro x hx
    rcases mem_updateEntry_weak _ _ _ x hx with h' | ⟨k0, hk0, rfl⟩
    · exact hB x h'
    · exact hB k0 hk0
  have hU' : ((updateEntry l cid (fun e => { e with isActive := false })).map
      (fun x => x.id)).Nodup := by
    rw [map_updateEntry (fun x => x.id) (fun e => { e with isActive := false })
      (fun e => rfl) l cid]
    exact hU
  have hfind' : (updateEntry l cid (fun e => { e with isActive := false })).find?
        (fun x => x.id = tid) = some k ∨
      (updateEntry l cid (fun e => { e with isActive := false })).find?
        (fun x => x.id = tid) = some { k with isActive := false } := by
    rw [find?_updateEntry _ hdeact l cid tid]
    by_cases hnc : tid = cid
    · rw [if_pos hnc, ← hnc, hfind]
      exact Or.inr rfl
    · rw [if_neg hnc, hfind]
      exact Or.inl rfl
  exact inv_activate_core _ tid k hA' hB' hU' hq hfind'

theorem setActiveKey_inv_success (st : ManagerState) (id : String) (k : ApiKey)
    (hf : findKey st id = some k) (hq : k.quotaExceeded = false)
    (hA : ∀ x ∈ st.apiKeys, x.key ≠ "") (hB : ∀ x ∈ st.apiKeys, x.id ≠ "")
    (hU : (st.apiKeys.map (fun x => x.id)).Nodup) :
    Inv (setActiveKey st id).2 := by
  have hq2 : ¬(k.quotaExceeded = true) := by simp [hq]
  simp only [setActiveKey, hf, hq2, Bool.false_eq_true, if_false, ite_false]
  cases hc : st.currentKeyId with
  | none => exact inv_activate_core st.apiKeys id k hA hB hU hq (Or.inl hf)
  | some cid =>
    by_cases hcid : cid = ""
    · simp only [hcid, if_pos rfl]
      exact inv_activate_core st.apiKeys id k hA hB hU hq (Or.inl hf)
    · simp only [if_neg hcid]
      exact inv_activate_after_deact st.apiKeys cid id k hA hB hU hq hf

theorem setActiveKey_inv (st : ManagerState) (id : String) (hinv : Inv st) :
    Inv (setActiveKey st id).2 := by
  obtain ⟨hA, hB, hU, hC, hD⟩ := hinv
  cases hf : findKey st id with
  | none =>
    simp only [setActiveKey, hf]
    exact ⟨hA, hB, hU, hC, hD⟩
  | some k =>
    by_cases hq : k.quotaExceeded = true
    · simp only [setActiveKey, hf, hq, if_true]
      exact ⟨hA, hB, hU, hC, hD⟩
    · exact setActiveKey_inv_success st id k hf ((Bool.not_eq_true _).mp hq) hA hB hU

theorem addKey_inv (st : ManagerState) (name key id now : String)
    (hid : id ≠ "") (hkey : key ≠ "") (hinv : Inv st) :
    Inv (addKey st name key id now).2 := by
  obtain ⟨hA, hB, hU, hC, hD⟩ := hinv
  have hA1 : ∀ x ∈ (insertOnly st name key id now).apiKeys, x.key ≠ "" := by
    intro x hx
    rcases mem_setEntry st.apiKeys (mkNewKey name key id now) x hx with rfl | h'
    · exact hkey
    · exact hA x h'
  have hB1 : ∀ x ∈ (insertOnly st name key id now).apiKeys, x.id ≠ "" := by
    intro x hx
    rcases mem_setEntry st.apiKeys (mkNewKey name key id now) x hx with rfl | h'
    · exact hid
    · exact hB x h'
  have hU1 : ((insertOnly st name key id now).apiKeys.map (fun k => k.id)).Nodup :=
    setEntry_nodup st.apiKeys (mkNewKey name key id now) hU
  by_cases hcond : isFalsyId (insertOnly st name key id now).currentKeyId = true ∨
      (getActiveKey (insertOnly st name key id now)).isNone = true
  · simp only [addKey]
    rw [if_pos hcond]
    exact setActiveKey_inv_success _ id (mkNewKey name key id now)
      (find?_setEntry_self st.apiKeys (mkNewKey name key id now)) rfl hA1 hB1 hU1
  · simp only [addKey]
    rw [if_neg hcond]
    refine ⟨hA1, hB1, hU1, ?_, ?_⟩
    · intro c hc
      have hc' : st.currentKeyId = some c := hc
      obtain ⟨k0, hk0, hk0id⟩ := hC c hc'
      by_cases hkid : k0.id = id
      · refine ⟨mkNewKey name key id now, mem_setEntry_self st.apiKeys _, ?_⟩
        show id = c
        rw [← hkid, hk0id]
      · exact ⟨k0, mem_setEntry_of_ne st.apiKeys (mkNewKey name key id now) k0 hk0 hkid, hk0id⟩
    · intro _
      cases hgv : getActiveKey (insertOnly st name key id now) with
      | none =>
        exfalso
        apply hcond
        exact Or.inr (by rw [hgv]; rfl)
      | some s =>
        obtain ⟨c, k, h1, h2, h3, _⟩ := getActiveKey_some_spec _ s hgv
        exact ⟨c, k, h1, h2, h3⟩

theorem removeKey_inv (st : ManagerState) (id : String) (hinv : Inv st) :
    Inv (removeKey st id).2 := by
  obtain ⟨hA, hB, hU, hC, hD⟩ := hinv
  by_cases hf : (findKey st id).isNone = true
  · simp only [removeKey]
    rw [if_pos hf]
    exact ⟨hA, hB, hU, hC, hD⟩
  · have hsub : (removeEntry st.apiKeys id).Sublist st.apiKeys := removeEntry_sublist st.apiKeys id
    have hA1 : ∀ x ∈ removeEntry st.apiKeys id, x.key ≠ "" := fun x hx => hA x (hsub.subset hx)
    have hB1 : ∀ x ∈ removeEntry st.apiKeys id, x.id ≠ "" := fun x hx => hB x (hsub.subset hx)
    have hU1 : ((removeEntry st.apiKeys id).map (fun k => k.id)).Nodup :=
      hU.sublist (hsub.map (fun k => k.id))
    by_cases hcur : st.currentKeyId = some id
    · simp only [removeKey]
      rw [if_neg hf, if_pos hcur]
      exact switchToNext_inv _ hA1 hB1 hU1
    · simp only [removeKey]
      rw [if_neg hf, if_neg hcur]
      refine ⟨hA1, hB1, hU1, ?_, ?_⟩
      · intro c hc
        have hc' : st.currentKeyId = some c := hc
        have hcne : c ≠ id := fun h => hcur (by rw [← h]; exact hc')
        obtain ⟨k0, hk0, hk0id⟩ := hC c hc'
        exact ⟨k0, mem_removeEntry_of_ne st.apiKeys id k0 hk0 (by rw [hk0id]; exact hcne),
          hk0id⟩
      · intro hex
        obtain ⟨x, hx, hxq⟩ := hex
        obtain ⟨c, k, h1, h2, h3⟩ := hD ⟨x, hsub.subset hx, hxq⟩
        have hcne : c ≠ id := fun h => hcur (by rw [← h]; exact h1)
        refine ⟨c, k, h1, ?_, h3⟩
        show (removeEntry st.apiKeys id).find? (fun x => x.id = c) = some k
        rw [removeEntry_find?_ne st.apiKeys id c hcne]
        exact h2

theorem markExceeded_inv (st : ManagerState) (kv now : String) (hinv : Inv st) :
    Inv (markKeyAsExceeded st kv now) := by
  obtain ⟨hA, hB, hU, hC, hD⟩ := hinv
  cases hfk : st.apiKeys.find? (fun k => k.key = kv) with
  | none =>
    simp only [markKeyAsExceeded, hfk]
    exact ⟨hA, hB, hU, hC, hD⟩
  | some k =>
    have hA1 : ∀ x ∈ markFirstByValue st.apiKeys kv now, x.key ≠ "" := by
      intro x hx
      obtain ⟨k0, hk0, _, hkeyeq, _⟩ := mem_markFirstByValue st.apiKeys kv now x hx
      rw [hkeyeq]
      exact hA k0 hk0
    have hB1 : ∀ x ∈ markFirstByValue st.apiKeys kv now, x.id ≠ "" := by
      intro x hx
      obtain ⟨k0, hk0, hideq, _, _⟩ := mem_markFirstByValue st.apiKeys kv now x hx
      rw [hideq]
      exact hB k0 hk0
    have hU1 : ((markFirstByValue st.apiKeys kv now).map (fun x => x.id)).Nodup := by
      rw [markFirstByValue_map_id]
      exact hU
    by_cases hcur : st.currentKeyId = some k.id
    · simp only [markKeyAsExceeded, hfk]
      rw [if_pos hcur]
      exact switchToNext_inv _ hA1 hB1 hU1
    · simp only [markKeyAsExceeded, hfk]
      rw [if_neg hcur]
      refine ⟨hA1, hB1, hU1, ?_, ?_⟩
      · intro c hc
        have hc' : st.currentKeyId = some c := hc
        obtain ⟨k0, hk0, hk0id⟩ := hC c hc'
        have hmm : k0.id ∈ (markFirstByValue st.apiKeys kv now).map (fun x => x.id) := by
          rw [markFirstByValue_map_id]
          exact List.mem_map.mpr ⟨k0, hk0, rfl⟩
        obtain ⟨x, hx, hxid⟩ := List.mem_map.mp hmm
        exact ⟨x, hx, hxid.trans hk0id⟩
      · intro hex
        obtain ⟨x, hx, hxq⟩ := hex
        obtain ⟨k0, hk0, _, _, hqd⟩ := mem_markFirstByValue st.apiKeys kv now x hx
        have hk0q : k0.quotaExceeded = false := by
          rcases hqd with h | h
          · rw [hxq] at h
            exact absurd h Bool.false_ne_true
          · rw [← h]
            exact hxq
        obtain ⟨c, kc, h1, h2, h3⟩ := hD ⟨k0, hk0, hk0q⟩
        have hcne : c ≠ k.id := fun h => hcur (by rw [← h]; exact h1)
        refine ⟨c, kc, h1, ?_, h3⟩
        show (markFirstByValue st.apiKeys kv now).find? (fun x => x.id = c) = some kc
        rw [markFirstByValue_find?_id st.apiKeys kv now c k hfk hcne]
        exact h2

theorem resetQuotas_inv (st : ManagerState) (now : String) (hinv : Inv st) :
    Inv (resetDailyQuotas st now) := by
  obtain ⟨hA, hB, hU, hC, hD⟩ := hinv
  have hA1 : ∀ x ∈ st.apiKeys.map
      (fun k => { k with quotaExceeded := false, dailyUsage := 0, lastChecked := now }),
      x.key ≠ "" := by
    intro x hx
    obtain ⟨k0, hk0, rfl⟩ := List.mem_map.mp hx
    exact hA k0 hk0
  have hB1 : ∀ x ∈ st.apiKeys.map
      (fun k => { k with quotaExceeded := false, dailyUsage := 0, lastChecked := now }),
      x.id ≠ "" := by
    intro x hx
    obtain ⟨k0, hk0, rfl⟩ := List.mem_map.mp hx
    exact hB k0 hk0
  have hU1 : ((st.apiKeys.map
      (fun k => { k with quotaExceeded := false, dailyUsage := 0, lastChecked := now })).map
      (fun x => x.id)).Nodup := by
    rw [List.map_map]
    exact hU
  by_cases hfal : isFalsyId st.currentKeyId = true
  · simp only [resetDailyQuotas]
    rw [if_pos hfal]
    exact switchToNext_inv _ hA1 hB1 hU1
  · simp only [resetDailyQuotas]
    rw [if_neg hfal]
    refine ⟨hA1, hB1, hU1, ?_, ?_⟩
    · intro c hc
      have hc' : st.currentKeyId = some c := hc
      obtain ⟨k0, hk0, hk0id⟩ := hC c hc'
      exact ⟨{ k0 with quotaExceeded := false, dailyUsage := 0, lastChecked := now },
        List.mem_map.mpr ⟨k0, hk0, rfl⟩, hk0id⟩
    · intro _
      cases hcs : st.currentKeyId with
      | none =>
        exfalso
        apply hfal
        rw [hcs]
        rfl
      | some c =>
        obtain ⟨k0, hk0, hk0id⟩ := hC c hcs
        cases hf1 : st.apiKeys.find? (fun x => x.id = c) with
        | none =>
          exfalso
          have hnone := List.find?_eq_none.mp hf1 k0 hk0
          simp [hk0id] at hnone
        | some k1 =>
          have hmapfind : (st.apiKeys.map
              (fun k => { k with quotaExceeded := false, dailyUsage := 0, lastChecked := now })).find?
              (fun x => x.id = c) = some
              { k1 with quotaExceeded := false, dailyUsage := 0, lastChecked := now } := by
            rw [find?_map_field
              (fun k => { k with quotaExceeded := false, dailyUsage := 0, lastChecked := now })
              (fun e => rfl) st.apiKeys c, hf1]
            rfl
          exact ⟨c, { k1 with quotaExceeded := false, dailyUsage := 0, lastChecked := now },
            rfl, hmapfind, rfl⟩

theorem step_inv (st : ManagerState) (op : MOp) (hinv : Inv st) (hok : opOk op) :
    Inv (step st op) := by
  cases op with
  | add name key id now =>
    have hok' : id ≠ "" ∧ key ≠ "" := hok
    exact addKey_inv st name key id now hok'.1 hok'.2 hinv
  | remove id => exact removeKey_inv st id hinv
  | markExceeded kv now => exact markExceeded_inv st kv now hinv
  | activate id => exact setActiveKey_inv st id hinv
  | switchNext =>
    obtain ⟨hA, hB, hU, _, _⟩ := hinv
    exact switchToNext_inv st hA hB hU
  | test id outcome now =>
    have hok' : False := hok
    exact hok'.elim
  | resetQuotas now => exact resetQuotas_inv st now hinv

theorem inv_empty : Inv emptyState := by
  refine ⟨?_, ?_, ?_, ?_, ?_⟩
  · intro k hk
    exact absurd hk (List.not_mem_nil k)
  · intro k hk
    exact absurd hk (List.not_mem_nil k)
  · exact List.nodup_nil
  · intro c hc
    exact Option.noConfusion hc
  · intro hex
    obtain ⟨k, hk, _⟩ := hex
    exact absurd hk (List.not_mem_nil k)

theorem runFrom_inv : ∀ (ops : List MOp) (st : ManagerState), Inv st →
    (∀ op ∈ ops, opOk op) → Inv (runFrom st ops) := by
  intro ops
  induction ops with
  | nil =>
    intro st hinv _
    exact hinv
  | cons op rest ih =>
    intro st hinv hok
    have h1 : opOk op := hok op (List.mem_cons_self op rest)
    have h2 : ∀ o ∈ rest, opOk o := fun o ho => hok o (List.mem_cons_of_mem op ho)
    exact ih (step st op) (step_inv st op hinv h1) h2

theorem runOps_inv (ops : List MOp) (hok : ∀ op ∈ ops, opOk op) : Inv (runOps ops) :=
  runFrom_inv ops emptyState inv_empty hok

end ManagerInvLemmas

section ClaimTheorems

open KeyRotation Caption

/-- C1: the public-operation invariant "at most one credential has
`active = true`, and an exhausted credential is never active" is violated by
the code: after adding one credential and marking its secret exhausted, the
empty-failover path of `switchToNextAvailableKey` returns without clearing
`isActive`, leaving the sole credential both exhausted and active; a further
`addKey` then produces two credentials with `active = true` at once. -/
theorem c1_active_invariant_violated :
    ((runOps c1Trace).apiKeys.filter (fun k => k.isActive)).length = 2 ∧
    (∃ k ∈ (runOps c1Trace).apiKeys, k.isActive = true ∧ k.quotaExceeded = true) := by
  decide

/-- C2 counterexample: after a probe (`testKey`) receives a quota-exceeded
error for the current credential, `getActiveKey` returns `none` although a
non-exhausted credential still exists — refuting "returns absent only when
no non-exhausted credential exists". -/
theorem c2_getActiveKey_null_with_usable_key :
    getActiveKey (runOps c2BadTrace) = none ∧
    (∃ k ∈ (runOps c2BadTrace).apiKeys, k.quotaExceeded = false) := by
  decide

/-- C3 counterexample: `getAllKeys` returns the stored credentials with their
full secrets; the redaction ("only a prefix/suffix exposed") exists only in
the GET route, whose redacted form differs from what `getAllKeys` exposes. -/
theorem c3_getAllKeys_exposes_full_secret :
    (getAllKeys c3St).map (fun k => k.key) = ["ABCDEFGHIJKLMNOPQRST"] ∧
    redactSecret "ABCDEFGHIJKLMNOPQRST" ≠ "ABCDEFGHIJKLMNOPQRST" := by
  decide

/-- C4 counterexample: `addKey` applied to empty displayName and secret does
not fail — it stores the credential and returns the generated id (the
emptiness check lives only in the route handler). -/
theorem c4_addKey_accepts_empty_inputs :
    (KeyRotation.addKey emptyState "" "" "id1" "t1").1 = "id1" ∧
    (∃ k ∈ (KeyRotation.addKey emptyState "" "" "id1" "t1").2.apiKeys,
      k.name = "" ∧ k.key = "" ∧ k.quotaExceeded = false) := by
  decide

/-- C5 counterexample: with three usable credentials and quota-exceeded
responses on every attempt, the retry bound is reached and the caller throws
the generic "YouTube API error" — not the terminal "no usable credential"
error — while a non-exhausted credential still remains. -/
theorem c5_bound_reached_generic_error :
    (makeRequest c5St c5RespQ "t9" 0).1 = Except.error (MErr.apiError "quota message") ∧
    MErr.apiError "quota message" ≠ MErr.allExhausted ∧
    MErr.apiError "quota message" ≠ MErr.noKeys ∧
    (∃ k ∈ (makeRequest c5St c5RespQ "t9" 0).2.apiKeys, k.quotaExceeded = false) := by
  decide

/-- C6 counterexample: a `ko` fetch whose normalized text is exactly 30
characters — at the claimed threshold — is rejected (the code requires
strictly more than 30), so with every other strategy failing the whole
extraction returns the terminal failure record instead of succeeding. -/
theorem c6_threshold_is_strict :
    (normalizeFull (joinM1 [⟨some "aaaaaaaaaaaaaaaaaaaaaaaaaaaaaa", none⟩])).length = 30 ∧
    extract c6Fetch cRawErr = failResult := by
  decide

/-- C8 counterexample: the language-loop normalization strips `(...)` but the
auto-detect/raw-fallback normalization does not, so the two differ on a
payload containing a parenthetical token — the normalization is not uniform
across strategies. -/
theorem c8_normalizations_differ :
    normalizeFull "(ab) cd" = "cd" ∧ normalizeNoParen "(ab) cd" = "(ab) cd" ∧
    normalizeFull "(ab) cd" ≠ normalizeNoParen "(ab) cd" := by
  decide

/-- C9 counterexample: the normalization is not idempotent. `.` in the
bracket-stripping regex does not match a newline, so `"[a\nb]"` survives the
first pass; whitespace collapse then turns the newline into a space and a
second pass strips the whole bracketed token. -/
theorem c9_not_idempotent_with_newline :
    normalizeFull "[a\nb]" = "[a b]" ∧
    normalizeFull (normalizeFull "[a\nb]") = "" ∧
    normalizeFull (normalizeFull "[a\nb]") ≠ normalizeFull "[a\nb]" := by
  decide

/-- C10 counterexample: with two credentials sharing a secret and the first
of them current, `markKeyAsExceeded` marks only the first — but the failover
it triggers sets `isActive := true` on the second, so a non-matching (and
later same-secret) credential is not left unchanged. -/
theorem c10_failover_changes_other_credential :
    (findKey c10St "id2").map (fun k => k.isActive) = some false ∧
    (findKey (markKeyAsExceeded c10St "shared-secret" "t9") "id2").map (fun k => k.isActive)
      = some true ∧
    (findKey (markKeyAsExceeded c10St "shared-secret" "t9") "id2").map (fun k => k.quotaExceeded)
      = some false := by
  decide

/-- C5 (amended): (1) the caller performs at most three attempts — its result
depends only on the responses to attempts 0, 1, 2 (at most 2 retries);
(2) whenever it surfaces the terminal "no usable credential"
(all-keys-exhausted) error, every credential in the resulting state really is
exhausted; (3) a quota-exceeded (or 403) response below the retry bound makes
it mark the current secret exhausted, switch, and retry, surfacing the
terminal all-exhausted error if the switch finds no usable credential — but
when the bound is reached while quota errors persist it surfaces the generic
"YouTube API error" instead (see the counterexample). -/
theorem c5_retry_bounded_and_exhaustion :
    (∀ (st : ManagerState) (resp resp' : Nat → YtResp) (now : String),
      (∀ i, i ≤ 2 → resp i = resp' i) →
      makeRequest st resp now 0 = makeRequest st resp' now 0) ∧
    (∀ (st : ManagerState) (resp : Nat → YtResp) (now : String) (rc : Nat)
        (st' : ManagerState),
      makeRequest st resp now rc = (.error .allExhausted, st') →
      ∀ k ∈ st'.apiKeys, k.quotaExceeded = true) ∧
    (∀ (st : ManagerState) (resp : Nat → YtResp) (now : String) (rc : Nat) (ck : String)
        (reason : Option String) (code : Option Int) (message : Option String),
      rc < 2 → getActiveKey st = some ck →
      resp rc = YtResp.fail reason code message →
      (reason = some "quotaExceeded" ∨ code = some 403) →
      makeRequest st resp now rc =
        (if (switchToNextAvailableKey (markKeyAsExceeded st ck now)).1 then
          makeRequest (switchToNextAvailableKey (markKeyAsExceeded st ck now)).2 resp now (rc + 1)
        else (.error .allExhausted,
          (switchToNextAvailableKey (markKeyAsExceeded st ck now)).2))) := by
  refine ⟨?_, ?_, ?_⟩
  · intro st resp resp' now h
    exact makeRequestFuel_resp_congr 3 st resp resp' now 0
      (fun i _ hi2 => h i hi2) (by omega)
  · intro st resp now rc st' h
    exact makeRequestFuel_allExhausted 3 st resp now rc st' (by omega) h
  · intro st resp now rc ck reason code message hlt hg hresp hcond
    show makeRequestFuel 3 st resp now rc = _
    simp only [makeRequestFuel, makeRequestBody, hg, hresp]
    rw [if_pos ⟨hcond, hlt⟩]
    by_cases hsw : (switchToNextAvailableKey (markKeyAsExceeded st ck now)).1 = true
    · rw [if_pos hsw, if_pos hsw]
      exact makeRequestFuel_fuel_congr 2 3 _ resp now (rc + 1) (by omega) (by omega)
    · rw [if_neg hsw, if_neg hsw]

/-- C5 witness: the caller's result is unchanged when the responses differ
only from the fourth attempt on. -/
theorem c5_retry_bounded_witness :
    makeRequest c5St c5RespQ "t9" 0 = makeRequest c5St c5RespQ' "t9" 0 :=
  c5_retry_bounded_and_exhaustion.1 c5St c5RespQ c5RespQ' "t9"
    (fun i hi => by simp [c5RespQ, c5RespQ', Nat.lt_succ_of_le hi])

/-- C6 (amended): for every pair of oracles, (1) the extraction returns the
result of the first language-loop iteration that produces one, (2) a resolved
fetch whose normalized text length is at or below 30 is treated as that
attempt's failure (the threshold is strict), and (3) any language-loop result
is a success tagged with its strategy. -/
theorem c6_first_success :
    (∀ (f : FetchOracle) (rf : RawOracle) (ls₁ : List String) (lang : String)
        (ls₂ : List String) (r : TranscriptResult),
      languagesList = ls₁ ++ lang :: ls₂ → (∀ l ∈ ls₁, langStep f l = none) →
      langStep f lang = some r → extract f rf = r) ∧
    (∀ (f : FetchOracle) (l : String) (items : List TItem),
      fetchFor f l = FetchOutcome.ok items →
      ¬ (normalizeFull (joinM1 items)).length > 30 → langStep f l = none) ∧
    (∀ (f : FetchOracle) (l : String) (r : TranscriptResult),
      langStep f l = some r →
      r.success = true ∧ r.method = "youtube-transcript-api") := by
  refine ⟨?_, ?_, ?_⟩
  · intro f rf ls₁ lang ls₂ r hdec h1 h2
    have hl : tryLangs f languagesList = some r := by
      rw [hdec]
      exact tryLangs_append f ls₁ lang ls₂ r h1 h2
    simp [extract, hl]
  · intro f l items hf ht
    simp only [langStep, hf]
    by_cases hlen : items.length > 0
    · rw [if_pos hlen, if_neg ht]
    · rw [if_neg hlen]
  · intro f l r h
    obtain ⟨t, lg, rfl⟩ := langStep_shape f l r h
    exact ⟨rfl, rfl⟩

/-- C6 witness: with a `ko` fetch of 31 normalized characters and every other
request failing, the extraction returns that first result, tagged `ko`. -/
theorem c6_first_success_witness :
    extract c6FetchW cRawErr =
      mkSuccess "aaaaaaaaaaaaaaaaaaaaaaaaaaaaaaa" "ko" "youtube-transcript-api" :=
  c6_first_success.1 c6FetchW cRawErr [] "ko" ["en", "ja", "zh", "es", "fr", "de", "auto"]
    (mkSuccess "aaaaaaaaaaaaaaaaaaaaaaaaaaaaaaa" "ko" "youtube-transcript-api")
    rfl (by simp) (by decide)

/-- C7: for every behavior of the caption API and the raw timed-text
endpoint, the extraction resolves to a structured value — a success record
carrying text and language, or the `success = false` record with an error
message — and, being a total function of its oracles, never propagates an
exception. -/
theorem c7_extract_total_structured (f : FetchOracle) (rf : RawOracle) :
    ((extract f rf).success = true ∧ (extract f rf).transcript ≠ none ∧
      (extract f rf).language ≠ none ∧ (extract f rf).error = none) ∨
    ((extract f rf).success = false ∧
      (extract f rf).error = some "No transcript available for this video" ∧
      (extract f rf).method = "none") := by
  cases h1 : tryLangs f languagesList with
  | some r =>
    obtain ⟨t, lg, rfl⟩ := tryLangs_shape f languagesList r h1
    left
    simp [extract, h1, mkSuccess]
  | none =>
    cases h2 : method2 f with
    | some r =>
      obtain ⟨t, rfl⟩ := method2_shape f r h2
      left
      simp [extract, h1, h2, mkSuccess]
    | none =>
      cases h3 : method3Go rf [0, 1, 2, 3, 4, 5] with
      | some r =>
        obtain ⟨t, rfl⟩ := method3Go_shape rf [0, 1, 2, 3, 4, 5] r h3
        left
        simp [extract, h1, h2, h3, mkSuccess]
      | none =>
        right
        simp [extract, h1, h2, h3, failResult]

/-- C8 (amended): the bracket strip, whitespace collapse and trim are common
to all strategies, and on a payload containing no `'('` the language-loop
normalization and the auto-detect/raw-fallback normalization agree; they
differ only in the parenthetical strip, which the latter paths omit. -/
theorem c8_uniform_without_parens (s : String) (h : '(' ∉ s.data) :
    normalizeFull s = normalizeNoParen s := by
  unfold normalizeFull normalizeNoParen
  have hsub : '(' ∉ stripPairs true '[' ']' s.data :=
    fun hm => h ((stripPairs_sublist true '[' ']' s.data).mem hm)
  rw [show stripPairs true '(' ')' (stripPairs true '[' ']' s.data)
        = stripPairs true '[' ']' s.data from stripGo_no_op true '(' ')' _ hsub]

/-- C8 witness: on a parenthesis-free payload the two normalizations agree. -/
theorem c8_uniform_witness :
    normalizeFull "[x] a  b" = normalizeNoParen "[x] a  b" :=
  c8_uniform_without_parens "[x] a  b" (by decide)

/-- C3 (amended): `getAllKeys` returns the stored credentials (secrets
unredacted) with no state change; a fresh `addKey` appends at the end of the
insertion order; the GET route maps `getAllKeys` through the redacting view,
and the redacted form exposes only the first ten and last four characters of
the secret (it depends on nothing else). -/
theorem c3_route_redacts_and_order :
    (∀ (st : ManagerState) (name key id now : String),
      (∀ k ∈ st.apiKeys, k.id ≠ id) →
      (getAllKeys (KeyRotation.addKey st name key id now).2).map (fun k => k.id)
        = (getAllKeys st).map (fun k => k.id) ++ [id]) ∧
    (∀ st : ManagerState, apiKeysRouteList st = (getAllKeys st).map (fun k =>
      ⟨k.id, k.name, redactSecret k.key, k.isActive, k.quotaExceeded, k.lastChecked⟩)) ∧
    (∀ s t : String, s.data.take 10 = t.data.take 10 →
      s.data.drop (s.data.length - 4) = t.data.drop (t.data.length - 4) →
      redactSecret s = redactSecret t) := by
  refine ⟨?_, fun st => rfl, ?_⟩
  · intro st name key id now hfresh
    have h1 : (insertOnly st name key id now).apiKeys.map (fun k => k.id)
        = st.apiKeys.map (fun k => k.id) ++ [id] :=
      setEntry_map_id_fresh (mkNewKey name key id now) st.apiKeys hfresh
    show ((KeyRotation.addKey st name key id now).2.apiKeys).map (fun k => k.id) = _
    unfold KeyRotation.addKey
    by_cases hcond : (isFalsyId (insertOnly st name key id now).currentKeyId
        ∨ (getActiveKey (insertOnly st name key id now)).isNone)
    · simp only [hcond, if_pos]
      rw [setActiveKey_map_id]
      exact h1
    · simp only [if_neg hcond]
      exact h1
  · intro s t h1 h2
    unfold redactSecret
    rw [h1, h2]

/-- C3 witness: insertion order after a fresh add, and two secrets agreeing
on their exposed prefix/suffix redact identically. -/
theorem c3_route_redacts_witness :
    (getAllKeys (KeyRotation.addKey c3St "n2" "UVWXYZ1234567890abcd" "id2" "t2").2).map
        (fun k => k.id) = ["id1", "id2"] ∧
    redactSecret "ABCDEFGHIJKLMNOPQRSTX" = redactSecret "ABCDEFGHIJZZZZZZZQRSTX" := by
  constructor
  · rw [c3_route_redacts_and_order.1 c3St "n2" "UVWXYZ1234567890abcd" "id2" "t2" (by decide)]
    decide
  · exact c3_route_redacts_and_order.2.2 _ _ (by decide) (by decide)

/-- C4 (amended): the emptiness validation lives in the POST route, which
rejects an empty displayName or secret with a 400 and leaves the manager
untouched; `addKey` itself never fails — it creates the credential with
`exhausted = false` and `active = false`, returns the generated id, and
activates the new credential exactly when no credential is currently active
and usable (`!currentKeyId || !getActiveKey()`). -/
theorem c4_route_validates_addKey_creates :
    (∀ (st : ManagerState) (name key id now : String), name = "" ∨ key = "" →
      addKeyRoute st name key id now = (.badRequest "키 이름과 API 키가 필요합니다", st)) ∧
    (∀ (st : ManagerState) (name key id now : String), name ≠ "" → key ≠ "" →
      (addKeyRoute st name key id now).1 = .okId id) ∧
    (∀ (st : ManagerState) (name key id now : String),
      (KeyRotation.addKey st name key id now).1 = id) ∧
    (∀ (st : ManagerState) (name key id now : String), (∀ k ∈ st.apiKeys, k.id ≠ id) →
      findKey (insertOnly st name key id now) id = some (mkNewKey name key id now)) ∧
    (∀ (st : ManagerState) (name key id now : String), (∀ k ∈ st.apiKeys, k.id ≠ id) →
      (isFalsyId (insertOnly st name key id now).currentKeyId = true ∨
        getActiveKey (insertOnly st name key id now) = none) →
      (KeyRotation.addKey st name key id now).2.currentKeyId = some id ∧
      findKey (KeyRotation.addKey st name key id now).2 id =
        some { mkNewKey name key id now with isActive := true }) ∧
    (∀ (st : ManagerState) (name key id now : String),
      ¬(isFalsyId (insertOnly st name key id now).currentKeyId = true ∨
        getActiveKey (insertOnly st name key id now) = none) →
      (KeyRotation.addKey st name key id now).2 = insertOnly st name key id now) := by
  refine ⟨?_, ?_, fun st name key id now => rfl, ?_, ?_, ?_⟩
  · intro st name key id now h
    simp [addKeyRoute, h]
  · intro st name key id now h1 h2
    have : ¬(name = "" ∨ key = "") := by
      rintro (h | h)
      exacts [h1 h, h2 h]
    simp [addKeyRoute, this, KeyRotation.addKey]
  · intro st name key id now hfresh
    exact insertOnly_find_fresh st name key id now hfresh
  · intro st name key id now hfresh hcond
    have hcond' : isFalsyId (insertOnly st name key id now).currentKeyId
        ∨ (getActiveKey (insertOnly st name key id now)).isNone := by
      rcases hcond with h | h
      · exact Or.inl h
      · exact Or.inr (by simp [h])
    have hfind := insertOnly_find_fresh st name key id now hfresh
    have hsk := setActiveKey_success (insertOnly st name key id now) id _ hfind rfl
    constructor
    · show (if _ then _ else _ : ManagerState).currentKeyId = some id
      rw [if_pos hcond']
      exact hsk.2.1
    · show findKey (if _ then _ else _ : ManagerState) id = _
      rw [if_pos hcond']
      exact hsk.2.2
  · intro st name key id now hcond
    have hcond' : ¬(isFalsyId (insertOnly st name key id now).currentKeyId
        ∨ (getActiveKey (insertOnly st name key id now)).isNone) := by
      rintro (h | h)
      · exact hcond (Or.inl h)
      · exact hcond (Or.inr (by simpa using h))
    show (if _ then _ else _ : ManagerState) = _
    rw [if_neg hcond']

/-- C4 witness: the route rejects an empty name without touching the state,
accepts a non-empty pair, and the first credential added to an empty manager
becomes current. -/
theorem c4_route_validates_witness :
    addKeyRoute emptyState "" "somekey" "id1" "t1"
        = (.badRequest "키 이름과 API 키가 필요합니다", emptyState) ∧
    (addKeyRoute emptyState "키" "secret-x" "id1" "t1").1 = .okId "id1" ∧
    (KeyRotation.addKey emptyState "키" "secret-x" "id1" "t1").2.currentKeyId = some "id1" := by
  refine ⟨?_, ?_, ?_⟩
  · exact c4_route_validates_addKey_creates.1 emptyState "" "somekey" "id1" "t1" (Or.inl rfl)
  · exact c4_route_validates_addKey_creates.2.1 emptyState "키" "secret-x" "id1" "t1"
      (by decide) (by decide)
  · exact (c4_route_validates_addKey_creates.2.2.2.2.1 emptyState "키" "secret-x" "id1" "t1"
      (by decide) (by decide)).1

/-- C10 (amended): `markKeyAsExceeded` with a duplicated secret marks only
the first matching credential in insertion order (setting `exhausted` and
`lastChecked`); with no match the state is untouched; every other
credential — including later ones with the same secret — keeps every field
except possibly `isActive`, and when the matched credential is not the
current one the whole state, `isActive` flags and `currentKeyId` included,
changes in no other way. (When the match is current, failover may flip
`isActive` flags — see the counterexample.) -/
theorem c10_markExceeded_frame :
    (∀ (st : ManagerState) (kv now : String),
      (∀ k ∈ st.apiKeys, k.key ≠ kv) → markKeyAsExceeded st kv now = st) ∧
    (∀ (st : ManagerState) (kv now : String) (l1 : List ApiKey) (e : ApiKey) (l2 : List ApiKey),
      st.apiKeys = l1 ++ e :: l2 → (∀ x ∈ l1, x.key ≠ kv) → e.key = kv →
      (markKeyAsExceeded st kv now).apiKeys.map (fun k => { k with isActive := false })
        = (l1 ++ { e with quotaExceeded := true, lastChecked := now } :: l2).map
            (fun k => { k with isActive := false })) ∧
    (∀ (st : ManagerState) (kv now : String) (l1 : List ApiKey) (e : ApiKey) (l2 : List ApiKey),
      st.apiKeys = l1 ++ e :: l2 → (∀ x ∈ l1, x.key ≠ kv) → e.key = kv →
      st.currentKeyId ≠ some e.id →
      markKeyAsExceeded st kv now
        = { st with apiKeys := l1 ++ { e with quotaExceeded := true, lastChecked := now } :: l2 }) := by
  have hfind : ∀ (st : ManagerState) (kv : String) (l1 : List ApiKey) (e : ApiKey) (l2 : List ApiKey),
      st.apiKeys = l1 ++ e :: l2 → (∀ x ∈ l1, x.key ≠ kv) → e.key = kv →
      st.apiKeys.find? (fun k => k.key = kv) = some e := by
    intro st kv l1 e l2 hdec h1 h2
    rw [hdec]
    exact find?_first_match _ l1 e l2 (fun x hx => by simp [h1 x hx]) (by simp [h2])
  refine ⟨?_, ?_, ?_⟩
  · intro st kv now h
    have : st.apiKeys.find? (fun k => k.key = kv) = none :=
      List.find?_eq_none.mpr (fun k hk => by simp [h k hk])
    simp [markKeyAsExceeded, this]
  · intro st kv now l1 e l2 hdec h1 h2
    have hf := hfind st kv l1 e l2 hdec h1 h2
    have hmark : markFirstByValue st.apiKeys kv now
        = l1 ++ { e with quotaExceeded := true, lastChecked := now } :: l2 := by
      rw [hdec]; exact markFirstByValue_decomp kv now l1 e l2 h1 h2
    simp only [markKeyAsExceeded, hf]
    by_cases hcur : st.currentKeyId = some e.id
    · rw [if_pos hcur]
      rw [switchToNext_map_eraseActive]
      simp only [hmark]
    · rw [if_neg hcur]
      simp only [hmark]
  · intro st kv now l1 e l2 hdec h1 h2 hcur
    have hf := hfind st kv l1 e l2 hdec h1 h2
    have hmark : markFirstByValue st.apiKeys kv now
        = l1 ++ { e with quotaExceeded := true, lastChecked := now } :: l2 := by
      rw [hdec]; exact markFirstByValue_decomp kv now l1 e l2 h1 h2
    simp only [markKeyAsExceeded, hf]
    rw [if_neg hcur, hmark]

/-- C10 witness: marking the non-current duplicate changes exactly that
entry and nothing else. -/
theorem c10_markExceeded_frame_witness :
    markKeyAsExceeded c10bSt "secret-two" "t9"
      = { c10bSt with apiKeys :=
          [(⟨"id1", "a", "secret-one", true, false, "t1", 0⟩ : ApiKey)] ++
            ({ (⟨"id2", "b", "secret-two", false, false, "t2", 0⟩ : ApiKey) with
                quotaExceeded := true, lastChecked := "t9" } :: []) } :=
  c10_markExceeded_frame.2.2 c10bSt "secret-two" "t9"
    [⟨"id1", "a", "secret-one", true, false, "t1", 0⟩]
    ⟨"id2", "b", "secret-two", false, false, "t2", 0⟩ [] rfl (by decide) rfl (by decide)

/-- C9 (amended): the caption normalization is idempotent on every input
containing no line-terminator character. (With a line terminator inside a
bracketed or parenthesized span, `.` cannot cross it, so the span survives
the first pass; the whitespace collapse then replaces the terminator by a
plain space and a second pass strips the span — see the counterexample.) -/
theorem c9_idempotent_no_line_terminators (s : String)
    (h : ∀ c ∈ s.data, isLineTerm c = false) :
    normalizeFull (normalizeFull s) = normalizeFull s := by
  have hsubB : (stripPairs true '[' ']' s.data).Sublist s.data :=
    stripPairs_sublist true '[' ']' s.data
  have hnlB : ∀ c ∈ stripPairs true '[' ']' s.data, isLineTerm c = false :=
    fun c hc => h c (hsubB.mem hc)
  have hPFb : PairFree '[' ']' (stripPairs true '[' ']' s.data) :=
    stripGo_pairFree '[' ']' s.data.length s.data le_rfl h
  have hsubP : (stripPairs true '(' ')' (stripPairs true '[' ']' s.data)).Sublist
      (stripPairs true '[' ']' s.data) :=
    stripPairs_sublist true '(' ')' _
  have hPFp : PairFree '(' ')' (stripPairs true '(' ')' (stripPairs true '[' ']' s.data)) :=
    stripGo_pairFree '(' ')' (stripPairs true '[' ']' s.data).length _ le_rfl hnlB
  have hPFbp : PairFree '[' ']' (stripPairs true '(' ')' (stripPairs true '[' ']' s.data)) :=
    pairFree_sublist '[' ']' hsubP hPFb
  have hPFbc : PairFree '[' ']'
      (collapseSpaces (stripPairs true '(' ')' (stripPairs true '[' ']' s.data))) :=
    pairFree_collapseAux '[' ']' (by decide) (by decide) _ false hPFbp
  have hPFpc : PairFree '(' ')'
      (collapseSpaces (stripPairs true '(' ')' (stripPairs true '[' ']' s.data))) :=
    pairFree_collapseAux '(' ')' (by decide) (by decide) _ false hPFp
  have hss : SingleSpaced
      (collapseSpaces (stripPairs true '(' ')' (stripPairs true '[' ']' s.data))) := by
    constructor
    · intro c hc hs
      rcases mem_collapseAux _ false c hc with h' | h'
      · exact h'
      · rw [h'.2] at hs
        exact absurd hs (by simp)
    · exact (collapseAux_chain _).1
  have hPFbt : PairFree '[' ']' (normalizeFull s).data :=
    pairFree_sublist '[' ']' (trimChars_sublist _) hPFbc
  have hPFpt : PairFree '(' ')' (normalizeFull s).data :=
    pairFree_sublist '(' ')' (trimChars_sublist _) hPFpc
  have hsst : SingleSpaced (normalizeFull s).data :=
    singleSpaced_of_infix (trimChars_mid _) hss
  have hht := trim_headNotSpace
    (collapseSpaces (stripPairs true '(' ')' (stripPairs true '[' ']' s.data)))
  have e1 : stripPairs true '[' ']' (normalizeFull s).data = (normalizeFull s).data :=
    (stripGo_pairFree_fix true '[' ']' (normalizeFull s).data.length _ le_rfl).1 hPFbt
  have e2 : stripPairs true '(' ')' (normalizeFull s).data = (normalizeFull s).data :=
    (stripGo_pairFree_fix true '(' ')' (normalizeFull s).data.length _ le_rfl).1 hPFpt
  have e3 : collapseSpaces (normalizeFull s).data = (normalizeFull s).data :=
    (collapseAux_fix _ hsst).1
  have e4 : trimChars (normalizeFull s).data = (normalizeFull s).data :=
    trim_fix _ hht.1 hht.2
  show String.mk (trimChars (collapseSpaces (stripPairs true '(' ')'
    (stripPairs true '[' ']' (normalizeFull s).data)))) = normalizeFull s
  rw [e1, e2, e3, e4]

/-- C9 witness: idempotence at a concrete line-terminator-free input. -/
theorem c9_idempotent_witness :
    normalizeFull (normalizeFull "[a] (b)  c  d") = normalizeFull "[a] (b)  c  d" :=
  c9_idempotent_no_line_terminators "[a] (b)  c  d" (by decide)

/-- C2 (amended): `getActiveKey` returns the active credential's secret exactly as
specified in the some-direction: a returned secret is the secret of the current,
non-exhausted credential. The absent-direction holds on every state reached from
the empty manager by probe-free well-formed operations: there `getActiveKey = none`
implies every stored credential is quota-exhausted. -/
theorem c2_getActiveKey_absent_means_all_exhausted :
    (∀ ops : List MOp, (∀ op ∈ ops, opOk op) →
      getActiveKey (runOps ops) = none →
      ∀ k ∈ (runOps ops).apiKeys, k.quotaExceeded = true) ∧
    (∀ (st : ManagerState) (s : String), getActiveKey st = some s →
      ∃ c k, st.currentKeyId = some c ∧ findKey st c = some k ∧
        k.quotaExceeded = false ∧ k.key = s) := by
  constructor
  · intro ops hok hnone k hk
    by_contra hq
    have hq' : k.quotaExceeded = false := (Bool.not_eq_true _).mp hq
    have hinv : Inv (runOps ops) := runOps_inv ops hok
    obtain ⟨s, hs⟩ := inv_usable_getActive (runOps ops) hinv ⟨k, hk, hq'⟩
    rw [hnone] at hs
    exact Option.noConfusion hs
  · exact getActiveKey_some_spec

/-- Witness for C2: on the concrete trace that adds one credential and then marks
its secret exhausted, `getActiveKey` is absent and indeed every stored credential
is exhausted. -/
theorem c2_getActiveKey_witness :
    ((runOps c2WitTrace).apiKeys.all (fun k => k.quotaExceeded)) = true := by
  apply List.all_eq_true.mpr
  intro k hk
  exact c2_getActiveKey_absent_means_all_exhausted.1 c2WitTrace (by decide) (by decide) k hk

end ClaimTheorems
